import Mathlib

/-!
Verification of the cache-record normalizer and (de)serializer of
`cache/remotecache/v1/utils.go`.

The Go code is embedded shallowly:

* machine integers that only ever hold array indices are `Nat`; the one
  field that can hold `-1` (`ParentIndex`) is `Int`;
* Go maps are association lists; writes replace an existing binding in
  place and otherwise append, so the (unspecified) Go map iteration order
  is refined to insertion order;
* the unstable `sort.Slice` / `slices.SortFunc` calls are refined to the
  stable `List.mergeSort` with the same comparator;
* pointers to `item` values are indices into an arena (`List ItemA`);
  mutation of an item is `List.set` on the arena;
* the external collision-resistant hash `digest.FromBytes` is modelled by
  an injective string encoding (its value order is unspecified in the
  source, the model fixes one);
* general recursion over possibly-cyclic pointer graphs takes a fuel
  argument and returns `none` when the fuel runs out.
-/

/-! ## Wire format data model (`CacheConfig` and friends) -/

structure CacheLayer where
  Blob : String
  ParentIndex : Int
  deriving DecidableEq, Repr

structure CacheInput where
  Selector : String
  LinkIndex : Nat
  deriving DecidableEq, Repr

structure CacheResult where
  LayerIndex : Nat
  CreatedAt : Int
  deriving DecidableEq, Repr

structure CacheRecord where
  Digest : String
  Inputs : List (List CacheInput)
  Results : List CacheResult
  deriving DecidableEq, Repr

structure CacheConfig where
  Layers : List CacheLayer
  Records : List CacheRecord
  deriving DecidableEq, Repr

instance : Inhabited CacheRecord := ⟨⟨"", [], []⟩⟩

/-! ## `sortConfig`

`sortConfig` sorts the layer array by `(Blob, ParentIndex)`, the record
array by the lexicographic comparator of `sort.Slice`, rewrites every
`ParentIndex`, `LayerIndex` and `LinkIndex` to the new positions, and
finally sorts every input slot by `LinkIndex`. -/

/-- Bytewise-lexicographic string comparison (Go compares digests and
selectors as strings).  Defined over the character data so that the
kernel can evaluate it (`String.ltb`, behind `String.decidableLT`, is
not kernel-reducible); it agrees with `<` on `String`. -/
def strLt (a b : String) : Bool := decide (a.data < b.data)

/-- Insert into a sorted list, after any elements accepted by `le`
(keeps the original order of elements the comparator ties). -/
def insertLe {α : Type} (le : α → α → Bool) (a : α) : List α → List α
  | [] => [a]
  | b :: l => if le a b then a :: b :: l else b :: insertLe le a l

/-- Stable insertion sort.  The Go code sorts with the unstable
`sort.Slice` / `slices.SortFunc`, whose order on comparator ties is
unspecified; this refines it to a stable, structurally recursive sort
(kernel-computable, unlike the well-founded `List.mergeSort`). -/
def sortLe {α : Type} (le : α → α → Bool) : List α → List α
  | [] => []
  | a :: l => insertLe le a (sortLe le l)

/-- The layer comparator of `slices.SortFunc`:
`cmp.Or(cmp.Compare(a.l.Blob, b.l.Blob), cmp.Compare(a.l.ParentIndex, b.l.ParentIndex))`. -/
def layerLtB (a b : CacheLayer) : Bool :=
  strLt a.Blob b.Blob || (a.Blob == b.Blob && decide (a.ParentIndex < b.ParentIndex))

/-- Digest of the record an input links to, as read by the record
comparator (`cc.Records[...].Digest`). -/
def inputDigestAt (rs : List CacheRecord) (idx : Nat) : String :=
  (rs.getD idx default).Digest

/-- One step of the innermost comparison loop: compare selectors, then the
digests of the linked records; `none` means "keep looking". -/
def entryPairCmp (rs : List CacheRecord) (x y : CacheInput) : Option Bool :=
  if x.Selector ≠ y.Selector then some (strLt x.Selector y.Selector)
  else if inputDigestAt rs x.LinkIndex ≠ inputDigestAt rs y.LinkIndex then
    some (strLt (inputDigestAt rs x.LinkIndex) (inputDigestAt rs y.LinkIndex))
  else none

/-- The inner `for j := range inputs` loop of the record comparator. -/
def entriesCmp (rs : List CacheRecord) : List CacheInput → List CacheInput → Option Bool
  | x :: xs, y :: ys =>
    match entryPairCmp rs x y with
    | some b => some b
    | none => entriesCmp rs xs ys
  | _, _ => none

/-- The outer `for i, inputs := range ri.Inputs` loop of the record
comparator: per-slot length check, then entrywise comparison. -/
def slotsCmp (rs : List CacheRecord) :
    List (List CacheInput) → List (List CacheInput) → Option Bool
  | xs :: xss, ys :: yss =>
    if xs.length ≠ ys.length then some (decide (xs.length < ys.length))
    else
      match entriesCmp rs xs ys with
      | some b => some b
      | none => slotsCmp rs xss yss
  | _, _ => none

/-- The full record comparator passed to `sort.Slice`: vertex digest, then
input arity, then the per-slot loops. `rs` is the record array of the
config being sorted (the comparator reads `cc.Records[...]` through the
pre-sort indices). -/
def recordLt (rs : List CacheRecord) (a b : CacheRecord) : Bool :=
  if a.Digest ≠ b.Digest then strLt a.Digest b.Digest
  else if a.Inputs.length ≠ b.Inputs.length then
    decide (a.Inputs.length < b.Inputs.length)
  else (slotsCmp rs a.Inputs b.Inputs).getD false

/-- `sortConfig` from `utils.go`.  Layers are paired with their old index
(`indexedLayer`), sorted, and the permutation is used to rewrite
`ParentIndex`; records are treated the same way, rewriting `LayerIndex`
and `LinkIndex`, and finally each input slot is sorted by `LinkIndex`. -/
def sortConfig (cc : CacheConfig) : CacheConfig :=
  let sortedLayers := sortLe (fun a b => !(layerLtB b.2 a.2)) cc.Layers.enum
  let newIdxL : Nat → Nat := fun old => sortedLayers.findIdx (fun p => p.1 == old)
  let layers := sortedLayers.map (fun p =>
    { p.2 with
      ParentIndex :=
        if p.2.ParentIndex == -1 then (-1 : Int)
        else Int.ofNat (newIdxL p.2.ParentIndex.toNat) })
  let sortedRecords := sortLe (fun a b => !(recordLt cc.Records b.2 a.2)) cc.Records.enum
  let newIdxR : Nat → Nat := fun old => sortedRecords.findIdx (fun p => p.1 == old)
  let records := sortedRecords.map (fun p =>
    { p.2 with
      Results := p.2.Results.map (fun res => { res with LayerIndex := newIdxL res.LayerIndex })
      Inputs := p.2.Inputs.map (fun slot =>
        sortLe (fun a b => decide (a.LinkIndex ≤ b.LinkIndex))
          (slot.map (fun inp => { inp with LinkIndex := newIdxR inp.LinkIndex }))) })
  { Layers := layers, Records := records }

/-! ## Association-list maps

Go maps are embedded as association lists: assignment replaces an existing
binding in place and otherwise appends, lookups scan for the key, and
iteration order is insertion order (one refinement of Go's unspecified
map iteration order). -/

/-- Map lookup. -/
def alookup {α β : Type} [DecidableEq α] : List (α × β) → α → Option β
  | [], _ => none
  | (k, v) :: rest, key => if k = key then some v else alookup rest key

/-- Map assignment `m[k] = v`. -/
def aset {α β : Type} [DecidableEq α] : List (α × β) → α → β → List (α × β)
  | [], k, v => [(k, v)]
  | (k', v') :: rest, k, v =>
    if k' = k then (k, v) :: rest else (k', v') :: aset rest k v

/-- Set insertion `s[a] = struct{}{}` for a set represented as a list. -/
def insertNew {α : Type} [DecidableEq α] (xs : List α) (a : α) : List α :=
  if a ∈ xs then xs else xs ++ [a]

/-! ## The in-memory item graph

A Go `*item` is an index into an arena.  `item.links` is one set of links
per input slot; `item.result` is the optional `*solver.Remote`, kept as
its list of descriptor digests. -/

structure Link where
  src : Nat
  selector : String
  deriving DecidableEq, Repr

structure ItemA where
  dgst : String
  links : List (List Link)
  result : Option (List String)
  resultTime : Int
  deriving DecidableEq, Repr

instance : Inhabited ItemA := ⟨⟨"", [], none, 0⟩⟩

/-! ## Marshalling (`marshalRemote`, `marshalItem`)

`marshalState.descriptors` only feeds the descriptor provider map, which
is not part of the serialized `CacheConfig`, so it is omitted.  The
`Provider.Info` probe is modelled by an optional predicate saying whether
a descriptor's info call succeeds (or is unimplemented). -/

structure MarshalState where
  layers : List CacheLayer
  chainsByID : List (String × Nat)
  records : List CacheRecord
  recordsByItem : List (Nat × Nat)
  deriving DecidableEq, Repr

def emptyMarshalState : MarshalState := ⟨[], [], [], []⟩

/-- The body of one `marshalRemote` level (from `utils.go`): given the id
and state of the already-marshalled parent prefix, register the chain
ending in `desc` (one layer per previously unseen chain id
`desc.Digest.String() + parentID`). -/
def marshalRemoteStep (desc : String) (pr : String × MarshalState) :
    String × MarshalState :=
  let parentID := pr.1
  let st1 := pr.2
  let id := desc ++ parentID
  match alookup st1.chainsByID id with
  | some _ => (id, st1)
  | none =>
    let parentIdx : Int :=
      if parentID = "" then -1
      else Int.ofNat ((alookup st1.chainsByID parentID).getD 0)
    (id, { st1 with
           chainsByID := aset st1.chainsByID id st1.layers.length
           layers := st1.layers ++ [{ Blob := desc, ParentIndex := parentIdx }] })

def marshalRemoteN (prov : Option (String → Bool)) (descs : List String) :
    Nat → MarshalState → String × MarshalState
  | 0, st => ("", st)
  | n+1, st =>
    marshalRemoteStep (descs.getD n "")
      (if n = 0 then ("", st) else marshalRemoteN prov descs n st)

/-- `marshalRemote` proper.  The Go function recurses on the descriptor
prefix `r.Descriptors[:n-1]`; `marshalRemoteN prov descs n` marshals the
prefix of length `n`, so the recursion is structural.  The `Provider.Info`
probe, which Go repeats on every prefix, is checked once up front (a
passing check on the whole list passes on every prefix). -/
def marshalRemote (descs : List String) (prov : Option (String → Bool))
    (st : MarshalState) : String × MarshalState :=
  if (match prov with
      | some ok => !(descs.all ok)
      | none => false) then ("", st)
  else marshalRemoteN prov descs descs.length st

/-- `marshalSlot`: the inner `for l := range m` loop of `marshalItem`,
marshalling each link's source and collecting the `CacheInput`s of one
input slot.  `mi` is the recursive `marshalItem` call. -/
def marshalSlot (mi : MarshalState → Nat → Option (Except String MarshalState)) :
    List Link → MarshalState → Option (Except String (List CacheInput × MarshalState))
  | [], st => some (.ok ([], st))
  | l :: ls, st =>
    match mi st l.src with
    | none => none
    | some (.error e) => some (.error e)
    | some (.ok st') =>
      match alookup st'.recordsByItem l.src with
      | none => some (.error "invalid source record")
      | some idx =>
        match marshalSlot mi ls st' with
        | none => none
        | some (.error e) => some (.error e)
        | some (.ok (ins, st'')) => some (.ok (⟨l.selector, idx⟩ :: ins, st''))

/-- `marshalSlots`: the outer `for i, m := range it.links` loop of
`marshalItem`. -/
def marshalSlots (mi : MarshalState → Nat → Option (Except String MarshalState)) :
    List (List Link) → MarshalState →
    Option (Except String (List (List CacheInput) × MarshalState))
  | [], st => some (.ok ([], st))
  | slot :: rest, st =>
    match marshalSlot mi slot st with
    | none => none
    | some (.error e) => some (.error e)
    | some (.ok (ins, st')) =>
      match marshalSlots mi rest st' with
      | none => none
      | some (.error e) => some (.error e)
      | some (.ok (inss, st'')) => some (.ok (ins :: inss, st''))

/-- `marshalItem` from `utils.go`, with a fuel argument for the recursion
over the (possibly cyclic) item graph; `none` means the fuel ran out. -/
def marshalItemF (A : List ItemA) (prov : Option (String → Bool)) :
    Nat → MarshalState → Nat → Option (Except String MarshalState)
  | 0, _, _ => none
  | fuel+1, st, i =>
    match alookup st.recordsByItem i with
    | some _ => some (.ok st)
    | none =>
      match A.get? i with
      | none => some (.error "invalid item")
      | some it =>
        match marshalSlots (marshalItemF A prov fuel) it.links st with
        | none => none
        | some (.error e) => some (.error e)
        | some (.ok (inputs, st1)) =>
          let resStep : Except String (List CacheResult × MarshalState) :=
            match it.result with
            | none => .ok ([], st1)
            | some descs =>
              let (id, st2) := marshalRemote descs prov st1
              if id = "" then .ok ([], st2)
              else
                match alookup st2.chainsByID id with
                | none => .error "parent chainid not found"
                | some idx => .ok ([⟨idx, it.resultTime⟩], st2)
          match resStep with
          | .error e => some (.error e)
          | .ok (ress, st3) =>
            some (.ok { st3 with
                        recordsByItem := aset st3.recordsByItem i st3.records.length
                        records := st3.records ++
                          [{ Digest := it.dgst, Inputs := inputs, Results := ress }] })

/-- Marshalling a set of items into a serialized config: fold
`marshalItem` over the items and read off the accumulated layer and
record arrays (the caller of `marshalItem`/`marshalRemote` in the
exporter does exactly this). -/
def marshalConfig (A : List ItemA) (prov : Option (String → Bool))
    (targets : List Nat) (fuel : Nat) : Option (Except String CacheConfig) :=
  let step : Option (Except String MarshalState) → Nat →
      Option (Except String MarshalState) := fun acc i =>
    match acc with
    | some (.ok st) => marshalItemF A prov fuel st i
    | other => other
  match targets.foldl step (some (.ok emptyMarshalState)) with
  | none => none
  | some (.error e) => some (.error e)
  | some (.ok st) => some (.ok { Layers := st.layers, Records := st.records })

/-- Folding `marshalRemote` over a list of remotes (layer production
alone, records untouched). -/
def marshalRemotes (prov : Option (String → Bool)) (rs : List (List String)) :
    MarshalState :=
  rs.foldl (fun st descs => (marshalRemote descs prov st).2) emptyMarshalState

/-! ## Normalization state (`normalizeState`) -/

structure NLink where
  dgst : String
  input : Nat
  selector : String
  deriving DecidableEq, Repr

structure NState where
  items : List ItemA
  added : List (Nat × Nat)
  links : List (Nat × List (NLink × List String))
  byKey : List (String × Nat)
  next : Nat
  deriving DecidableEq, Repr

/-- Models `digest.FromBytes` (an external collision-resistant hash over
byte strings).  The model keeps determinism and injectivity; the value
order of the real hash is not specified by the source, and the model
fixes one possible order. -/
def digestFromBytes (s : String) : String := "sha256:" ++ s

/-- `state.links[it2][nl]` with a possibly-nil item pointer (reading a
missing Go map key yields the empty set). -/
def linkIds (s : NState) (o : Option Nat) (nl : NLink) : List String :=
  match o with
  | none => []
  | some k =>
    match alookup s.links k with
    | none => []
    | some m => (alookup m nl).getD []

/-- `state.links[subIt][nl][id] = struct{}{}` (creating the intermediate
maps as the Go code does). -/
def linksInsert (s : NState) (k : Nat) (nl : NLink) (id : String) : NState :=
  let m := (alookup s.links k).getD []
  let ids := (alookup m nl).getD []
  { s with links := aset s.links k (aset m nl (insertNew ids id)) }

/-- Remove `id` from `state.links[k][nl]` (the `delete(links[l], id)` in
`checkLoops`). -/
def linksRemoveId (s : NState) (k : Nat) (nl : NLink) (id : String) : NState :=
  match alookup s.links k with
  | none => s
  | some m =>
    match alookup m nl with
    | none => s
    | some ids =>
      { s with links := aset s.links k (aset m nl (ids.filter (fun x => x ≠ id))) }

/-- Modelled from the spec: `item.removeLink` is defined outside the
provided sources; per the spec's loop-removal step ("when a link would
revisit an ancestor, drop that specific link (not the whole item)") it
drops every link whose source is the given item from each input slot of
the receiver and reports whether any link was removed. -/
def removeLinkItem (it : ItemA) (src : Nat) : ItemA × Bool :=
  let removedAny := it.links.any (fun slot => slot.any (fun l => l.src = src))
  ({ it with links := it.links.map (fun slot => slot.filter (fun l => l.src ≠ src)) },
   removedAny)

/-- The body of `checkLoops` iterating over one id set
(`for id := range ids`).  `itIdx` is the arena index of the item whose
outgoing normalized links are being walked. -/
def checkLoopsIds
    (recur : NState → String → List String → NState × List String)
    (itIdx : Nat) (nl : NLink) :
    List String → NState → List String → NState × List String
  | [], s, visited => (s, visited)
  | id :: ids, s, visited =>
    if id ∈ visited then
      match alookup s.byKey id with
      | none => checkLoopsIds recur itIdx nl ids s visited
      | some tgtIdx =>
        let tgt := (s.items.get? tgtIdx).getD default
        let (tgt', _removed) := removeLinkItem tgt itIdx
        let s1 := { s with items := s.items.set tgtIdx tgt' }
        let s2 := linksRemoveId s1 itIdx nl id
        checkLoopsIds recur itIdx nl ids s2 visited
    else
      let (s', visited') := recur s id visited
      checkLoopsIds recur itIdx nl ids s' visited'

/-- The `for l, ids := range links` loop of `checkLoops`. -/
def checkLoopsEntries
    (recur : NState → String → List String → NState × List String)
    (itIdx : Nat) :
    List (NLink × List String) → NState → List String → NState × List String
  | [], s, visited => (s, visited)
  | (nl, ids) :: rest, s, visited =>
    let (s', visited') := checkLoopsIds recur itIdx nl ids s visited
    checkLoopsEntries recur itIdx rest s' visited'

/-- `checkLoops` from `utils.go`, DFS over the normalized link graph with
a global visited set.  The fuel bounds the recursion depth (each
recursive call targets an unvisited digest). -/
def checkLoops : Nat → NState → String → List String → NState × List String
  | 0, s, _, visited => (s, visited)
  | fuel+1, s, d, visited =>
    match alookup s.byKey d with
    | none => (s, visited)
    | some itIdx =>
      match alookup s.links itIdx with
      | none => (s, visited)
      | some entries =>
        let visited' := insertNew visited d
        checkLoopsEntries (checkLoops fuel) itIdx entries s visited'

/-- `removeLoops` from `utils.go`: collect the digests of items with no
input links as roots and run `checkLoops` from each, sharing the visited
set. -/
def removeLoops (s : NState) : NState :=
  let roots := s.byKey.filterMap (fun p =>
    if ((s.items.get? p.2).getD default).links.isEmpty then some p.1 else none)
  let fuel := s.byKey.length + 2
  (roots.foldl (fun acc d => checkLoops fuel acc.1 d acc.2) (s, ([] : List String))).1

/-! ## `normalizeItem` -/

/-- The `for l := range m` loop of `normalizeItem`'s matching pass over
the links of one input slot: normalize the link's source and union
(slot 0) or intersect (other slots) its registered child keys into the
match set.  `norm` is the recursive `normalizeItem` call. -/
def matchLinks (norm : NState → Nat → Option (Except String (Option Nat × NState)))
    (dgst : String) (slotIdx : Nat) (isFirst : Bool) :
    List Link → List String → NState →
    Option (Except String (List String × NState))
  | [], mset, s => some (.ok (mset, s))
  | l :: ls, mset, s =>
    match norm s l.src with
    | none => none
    | some (.error e) => some (.error e)
    | some (.ok (it2, s')) =>
      let nl : NLink := ⟨dgst, slotIdx, l.selector⟩
      let ids := linkIds s' it2 nl
      let mset' := if isFirst then ids.foldl insertNew mset
                      else mset.filter (fun m => m ∈ ids)
      matchLinks norm dgst slotIdx isFirst ls mset' s'

/-- The `for i, m := range it.links` matching loop of `normalizeItem`:
fails on an empty input slot (`invalid incomplete links`), otherwise
folds `matchLinks` over the slots. -/
def matchSlots (norm : NState → Nat → Option (Except String (Option Nat × NState)))
    (dgst : String) :
    List (List Link) → Nat → List String → NState →
    Option (Except String (List String × NState))
  | [], _, mset, s => some (.ok (mset, s))
  | slot :: rest, slotIdx, mset, s =>
    if slot.isEmpty then some (.error "invalid incomplete links")
    else
      match matchLinks norm dgst slotIdx (slotIdx = 0) slot mset s with
      | none => none
      | some (.error e) => some (.error e)
      | some (.ok (mset', s')) => matchSlots norm dgst rest (slotIdx+1) mset' s'

/-- The lexicographically-smallest-key loop
(`if id == "" || id > m { id = m }`). -/
def pickMinId (mset : List String) : String :=
  mset.foldl (fun id m => if id = "" ∨ strLt m id then m else id) ""

/-- Insert a link into input slot `slotIdx` of the item at `canIdx`
(`it2.links[i][link{...}] = struct{}{}`). -/
def itemAddLink (s : NState) (canIdx slotIdx : Nat) (l : Link) : NState :=
  match s.items.get? canIdx with
  | none => s
  | some it =>
    let slot := (it.links.get? slotIdx).getD []
    let it' := { it with links := it.links.set slotIdx (insertNew slot l) }
    { s with items := s.items.set canIdx it' }

/-- The inner loop of `normalizeItem`'s re-linking pass: normalize each
source again (now resolved through `state.added`), attach the link to the
canonical item, and register the child key in `state.links`. -/
def relinkLinks (norm : NState → Nat → Option (Except String (Option Nat × NState)))
    (dgst id : String) (canIdx slotIdx : Nat) :
    List Link → NState → Option (Except String NState)
  | [], s => some (.ok s)
  | l :: ls, s =>
    match norm s l.src with
    | none => none
    | some (.error e) => some (.error e)
    | some (.ok (subIt?, s')) =>
      match subIt? with
      | none => some (.error "nil source item")
      | some subIt =>
        let s1 := itemAddLink s' canIdx slotIdx ⟨subIt, l.selector⟩
        let nl : NLink := ⟨dgst, slotIdx, l.selector⟩
        let s2 := linksInsert s1 subIt nl id
        relinkLinks norm dgst id canIdx slotIdx ls s2

/-- The outer loop of the re-linking pass. -/
def relinkSlots (norm : NState → Nat → Option (Except String (Option Nat × NState)))
    (dgst id : String) (canIdx : Nat) :
    List (List Link) → Nat → NState → Option (Except String NState)
  | [], _, s => some (.ok s)
  | slot :: rest, slotIdx, s =>
    match relinkLinks norm dgst id canIdx slotIdx slot s with
    | none => none
    | some (.error e) => some (.error e)
    | some (.ok s') => relinkSlots norm dgst id canIdx rest (slotIdx+1) s'

/-- `normalizeItem` from `utils.go`, on the arena embedding, with fuel
(`none` = fuel ran out; the Go function diverges on the corresponding
cyclic graphs).  The `Option Nat` result is the possibly-nil `*item`
return value: the "new root item" path returns Go `nil`.  The
"missing canonical"/"nil source item" errors model nil-pointer panics on
states the algorithm never produces. -/
def normalizeItemF : Nat → NState → Nat → Option (Except String (Option Nat × NState))
  | 0, _, _ => none
  | fuel+1, s, i =>
    match alookup s.added i with
    | some c => some (.ok (some c, s))
    | none =>
      match s.items.get? i with
      | none => some (.error "invalid item")
      | some it =>
        if it.links.isEmpty then
          let id := it.dgst
          match alookup s.byKey id with
          | some c => some (.ok (some c, { s with added := aset s.added i c }))
          | none =>
            some (.ok (none, { s with byKey := aset s.byKey id i
                                      added := aset s.added i i }))
        else
          match matchSlots (normalizeItemF fuel) it.dgst it.links 0 [] s with
          | none => none
          | some (.error e) => some (.error e)
          | some (.ok (mset, s1)) =>
            let origLinks := ((s1.items.get? i).getD it).links
            if mset.isEmpty then
              let next' := s1.next + 1
              let id := digestFromBytes (Nat.repr next')
              let itCur := (s1.items.get? i).getD it
              let s2 := { s1 with
                          next := next'
                          byKey := aset s1.byKey id i
                          items := s1.items.set i
                            { itCur with links := List.replicate itCur.links.length [] }
                          added := aset s1.added i i }
              match relinkSlots (normalizeItemF fuel) it.dgst id i origLinks 0 s2 with
              | none => none
              | some (.error e) => some (.error e)
              | some (.ok s3) => some (.ok (some i, s3))
            else
              let id := pickMinId mset
              match alookup s1.byKey id with
              | none => some (.error "missing canonical item")
              | some canIdx =>
                let s2 := { s1 with added := aset s1.added i canIdx }
                match relinkSlots (normalizeItemF fuel) it.dgst id canIdx origLinks 0 s2 with
                | none => none
                | some (.error e) => some (.error e)
                | some (.ok s3) => some (.ok (some canIdx, s3))

/-- Normalizing a list of items against a shared state (the caller of
`normalizeItem` folds it over the items to normalize). -/
def normalizeAll (targets : List Nat) (fuel : Nat) (s : NState) :
    Option (Except String NState) :=
  targets.foldl
    (fun acc i =>
      match acc with
      | some (.ok s') =>
        match normalizeItemF fuel s' i with
        | none => none
        | some (.error e) => some (.error e)
        | some (.ok (_, s'')) => some (.ok s'')
      | other => other)
    (some (.ok s))

/-! ## Option-Bool lexicographic comparators

The `sort.Slice` comparator and its loops are early-return lexicographic
chains.  `some b` is an early `return b`, `none` means "the compared keys
are equal so far". -/

/-- Negation of an early-return comparison (swapping the arguments of a
lexicographic chain negates every early return). -/
def obNeg : Option Bool → Option Bool
  | some b => some !b
  | none => none

/-- Sequencing of early-return comparisons. -/
def obThen (c₁ c₂ : Option Bool) : Option Bool :=
  match c₁ with
  | some b => some b
  | none => c₂

/-- Three-way comparison of two keys in a linear order. -/
def keyCmp {κ : Type} [LinearOrder κ] (u v : κ) : Option Bool :=
  if u < v then some true else if v < u then some false else none

/-- Lexicographic comparison of two lists, element comparisons
early-returning, equal as soon as either list is exhausted (the shape of
the comparator loops in `sortConfig`). -/
def lexListCmpBy {α : Type} (c : α → α → Option Bool) :
    List α → List α → Option Bool
  | x :: xs, y :: ys => obThen (c x y) (lexListCmpBy c xs ys)
  | _, _ => none

/-- Length comparison before lexicographic comparison (the shape of the
per-slot and whole-record comparisons, whose loops are guarded by length
checks). -/
def lenLexCmpBy {α : Type} (c : α → α → Option Bool) (xs ys : List α) : Option Bool :=
  obThen (keyCmp xs.length ys.length) (lexListCmpBy c xs ys)

/-- What it takes for an early-return comparator to sort with
`mergeSort`: swapping arguments negates it, strict outcomes are
transitive, and comparands it cannot separate are interchangeable. -/
structure IsLexCmp {α : Type} (c : α → α → Option Bool) : Prop where
  mirror : ∀ x y, c y x = obNeg (c x y)
  transT : ∀ x y z, c x y = some true → c y z = some true → c x z = some true
  congrN : ∀ x y, c x y = none → ∀ z, c x z = c y z ∧ c z x = c z y

/-- The record comparator as an early-return chain (shown equal to
`recordLt` below). -/
def recCmpOB (rs : List CacheRecord) (a b : CacheRecord) : Option Bool :=
  obThen (keyCmp a.Digest b.Digest)
    (obThen (keyCmp a.Inputs.length b.Inputs.length) (slotsCmp rs a.Inputs b.Inputs))

/-- The layer comparator as an early-return chain. -/
def layerCmpOB (a b : CacheLayer) : Option Bool :=
  obThen (keyCmp a.Blob b.Blob) (keyCmp a.ParentIndex b.ParentIndex)

/-! ## Claim-level predicates -/

/-- Claim C1 as stated: every `ParentIndex` is `-1` or strictly smaller
than the entry's own index. -/
def NoForwardRefs (cc : CacheConfig) : Prop :=
  ∀ i, (h : i < cc.Layers.length) →
    (cc.Layers.get ⟨i, h⟩).ParentIndex = -1 ∨
    (cc.Layers.get ⟨i, h⟩).ParentIndex < (i : Int)

/-- Amended C1: every `ParentIndex` is `-1` or a valid index of a
different entry, and the parent relation is acyclic (it decreases a rank
function). -/
def ParentAcyclic (cc : CacheConfig) : Prop :=
  ∃ rank : Nat → Nat, ∀ i, (h : i < cc.Layers.length) →
    (cc.Layers.get ⟨i, h⟩).ParentIndex = -1 ∨
    ∃ j, j < cc.Layers.length ∧ (cc.Layers.get ⟨i, h⟩).ParentIndex = (j : Int) ∧
      j ≠ i ∧ rank j < rank i

/-- Sorted `(selector, parent digest)` pairs of one input slot, as the
spec's ordering clause describes them. -/
def slotPairs (rs : List CacheRecord) (slot : List CacheInput) : List (String × String) :=
  sortLe (fun a b => strLt a.1 b.1 || (a.1 == b.1 && !(strLt b.2 a.2)))
    (slot.map (fun inp => (inp.Selector, inputDigestAt rs inp.LinkIndex)))

/-- Lexicographic order on string pairs. -/
def pairLtB (a b : String × String) : Bool :=
  strLt a.1 b.1 || (a.1 == b.1 && strLt a.2 b.2)

/-- Lexicographic order on lists of string pairs. -/
def pairListLtB : List (String × String) → List (String × String) → Bool
  | [], [] => false
  | [], _ :: _ => true
  | _ :: _, [] => false
  | a :: as, b :: bs => pairLtB a b || (a == b && pairListLtB as bs)

/-- Lexicographic order on the per-slot keys. -/
def slotKeysLtB : List (List (String × String)) → List (List (String × String)) → Bool
  | [], [] => false
  | [], _ :: _ => true
  | _ :: _, [] => false
  | a :: as, b :: bs => pairListLtB a b || (a == b && slotKeysLtB as bs)

/-- The record order claimed by the spec: vertex digest, then arity, then
lexicographically the sorted `(selector, parent digest)` pairs of each
slot. -/
def claimRecordLtB (rs : List CacheRecord) (a b : CacheRecord) : Bool :=
  strLt a.Digest b.Digest ||
    (a.Digest == b.Digest &&
      (decide (a.Inputs.length < b.Inputs.length) ||
        (a.Inputs.length == b.Inputs.length &&
          slotKeysLtB (a.Inputs.map (slotPairs rs)) (b.Inputs.map (slotPairs rs)))))

/-- Claim C2 as stated: layers sorted by `(Blob, ParentIndex)`, records
sorted by the claimed key, and every slot sorted by `LinkIndex`. -/
def ClaimC2 (cc : CacheConfig) : Prop :=
  cc.Layers.Pairwise (fun a b => ¬ layerLtB b a = true) ∧
  cc.Records.Pairwise (fun a b => ¬ claimRecordLtB cc.Records b a = true) ∧
  ∀ r ∈ cc.Records, ∀ slot ∈ r.Inputs,
    slot.Pairwise (fun x y => x.LinkIndex ≤ y.LinkIndex)

/-- Validity hypotheses of claim C3: parent indices resolve in `Layers`,
link indices resolve in `Records`, layer indices resolve in `Layers`. -/
def ValidCC (cc : CacheConfig) : Prop :=
  (∀ l ∈ cc.Layers, l.ParentIndex = -1 ∨
    ∃ j, j < cc.Layers.length ∧ l.ParentIndex = (j : Int)) ∧
  (∀ r ∈ cc.Records, (∀ slot ∈ r.Inputs, ∀ inp ∈ slot,
      inp.LinkIndex < cc.Records.length) ∧
    ∀ res ∈ r.Results, res.LayerIndex < cc.Layers.length)

/-- Strictly-decreasing parent indices: the layer layout `marshalRemote`
actually produces (every parent was appended before its child). -/
def ParentsLtIdx (ls : List CacheLayer) : Prop :=
  ∀ i, (h : i < ls.length) →
    (ls.get ⟨i, h⟩).ParentIndex = -1 ∨
    ∃ j, j < i ∧ (ls.get ⟨i, h⟩).ParentIndex = (j : Int)

/-- The chain id `marshalRemote` assigns to the chain ending at layer
index `i` (blob digest concatenated with the parent's chain id), with
fuel for the recursion along parent indices. -/
def chainIdAt (ls : List CacheLayer) : Nat → Nat → String
  | 0, _ => ""
  | fuel+1, i =>
    match ls.get? i with
    | none => ""
    | some l =>
      l.Blob ++ (if l.ParentIndex = -1 then "" else chainIdAt ls fuel l.ParentIndex.toNat)

/-- Canonical fuel: a parent chain starting at `i` has length at most
`i + 1` when parents strictly decrease. -/
def chainId (ls : List CacheLayer) (i : Nat) : String := chainIdAt ls (i+1) i

/-- The invariant of `marshalState` layer/chain bookkeeping. -/
def MarshalInv (st : MarshalState) : Prop :=
  ParentsLtIdx st.layers ∧
  (∀ p ∈ st.chainsByID, p.2 < st.layers.length ∧ p.1 = chainId st.layers p.2) ∧
  (st.chainsByID.map Prod.fst).Nodup ∧
  (∀ i, i < st.layers.length → ∃ id, (id, i) ∈ st.chainsByID)

/-- "Some transitively reachable source item (or the item itself) has an
empty input slot" over an item arena. -/
inductive EmptyReach (A : List ItemA) : Nat → Prop
  | here (i : Nat) (it : ItemA) : A.get? i = some it → [] ∈ it.links → EmptyReach A i
  | step (i : Nat) (it : ItemA) (slot : List Link) (l : Link) :
      A.get? i = some it → slot ∈ it.links → l ∈ slot →
      EmptyReach A l.src → EmptyReach A i

/-- A rank function witnessing acyclicity of the arena's link graph
(links always point to lower-ranked items). -/
def RankedArena (A : List ItemA) (rank : Nat → Nat) : Prop :=
  ∀ i, (h : i < A.length) → ∀ slot ∈ (A.get ⟨i, h⟩).links, ∀ l ∈ slot,
    rank l.src < rank i

/-- All link sources point into the arena. -/
def SrcsValid (A : List ItemA) : Prop :=
  ∀ i, (h : i < A.length) → ∀ slot ∈ (A.get ⟨i, h⟩).links, ∀ l ∈ slot,
    l.src < A.length

/-- The match set `normalizeItem` computes when every link source is
already resolved through `state.added` (the pure content of the matching
loops). -/
def matchesPure (s : NState) (dgst : String) : List (List Link) → Nat → List String → List String
  | [], _, mset => mset
  | slot :: rest, slotIdx, mset =>
    let mset' := slot.foldl
      (fun acc l =>
        let nl : NLink := ⟨dgst, slotIdx, l.selector⟩
        let ids := linkIds s (alookup s.added l.src) nl
        if slotIdx = 0 then ids.foldl insertNew acc
        else acc.filter (fun m => m ∈ ids))
      mset
    matchesPure s dgst rest (slotIdx+1) mset'

instance instDecEqExcept {ε α : Type} [DecidableEq ε] [DecidableEq α] :
    DecidableEq (Except ε α) := fun a b =>
  match a, b with
  | .ok x, .ok y =>
    if h : x = y then .isTrue (by rw [h]) else .isFalse (fun he => h (Except.ok.inj he))
  | .error x, .error y =>
    if h : x = y then .isTrue (by rw [h]) else .isFalse (fun he => h (Except.error.inj he))
  | .ok _, .error _ => .isFalse (fun he => Except.noConfusion he)
  | .error _, .ok _ => .isFalse (fun he => Except.noConfusion he)

/-! ## Concrete states used as counterexamples and witnesses -/

/-- One item with a two-descriptor result whose parent blob sorts after
its child blob. -/
def itemZA : List ItemA := [⟨"v", [], some ["z", "a"], 0⟩]

/-- Layers whose blob order disagrees with their parent order, plus two
records with equal digest and arity whose stored slot order disagrees
with the sorted-pairs order. -/
def ccC2 : CacheConfig :=
  { Layers := [⟨"z", -1⟩, ⟨"a", -1⟩, ⟨"b", 0⟩, ⟨"b", 1⟩],
    Records := [⟨"a", [], []⟩, ⟨"b", [], []⟩,
                ⟨"d", [[⟨"z", 0⟩, ⟨"a", 1⟩]], []⟩,
                ⟨"d", [[⟨"b", 0⟩, ⟨"y", 1⟩]], []⟩] }

/-- A valid config on which `sortConfig` is not idempotent (duplicate
blobs and duplicate record digests). -/
def ccC3 : CacheConfig :=
  { Layers := [⟨"z", -1⟩, ⟨"a", -1⟩, ⟨"b", 0⟩, ⟨"b", 1⟩],
    Records := [⟨"a", [], []⟩, ⟨"b", [], []⟩,
                ⟨"d", [[⟨"a", 1⟩, ⟨"z", 0⟩]], []⟩,
                ⟨"d", [[⟨"b", 0⟩, ⟨"y", 1⟩]], []⟩] }

/-- An acyclic diamond with a consumer below the shared sink:
`a` feeds `b` and `c`, both feed `d`, and `d` feeds `e`. -/
def diamondS : NState :=
  { items := [⟨"a", [], none, 0⟩,
              ⟨"b", [[⟨0, ""⟩]], none, 0⟩,
              ⟨"c", [[⟨0, ""⟩]], none, 0⟩,
              ⟨"d", [[⟨1, ""⟩], [⟨2, ""⟩]], none, 0⟩,
              ⟨"e", [[⟨3, ""⟩]], none, 0⟩],
    added := [],
    links := [(0, [(⟨"b", 0, ""⟩, ["b"]), (⟨"c", 0, ""⟩, ["c"])]),
              (1, [(⟨"d", 0, ""⟩, ["d"])]),
              (2, [(⟨"d", 1, ""⟩, ["d"])]),
              (3, [(⟨"e", 0, ""⟩, ["e"])])],
    byKey := [("a", 0), ("b", 1), ("c", 2), ("d", 3), ("e", 4)],
    next := 0 }

/-- `diamondS` after `removeLoops`: the later-visited inbound link of the
shared item `d` (the one from `c`) has been dropped although the graph
was acyclic. -/
def diamondExpected : NState :=
  { items := [⟨"a", [], none, 0⟩,
              ⟨"b", [[⟨0, ""⟩]], none, 0⟩,
              ⟨"c", [[⟨0, ""⟩]], none, 0⟩,
              ⟨"d", [[⟨1, ""⟩], []], none, 0⟩,
              ⟨"e", [[⟨3, ""⟩]], none, 0⟩],
    added := [],
    links := [(0, [(⟨"b", 0, ""⟩, ["b"]), (⟨"c", 0, ""⟩, ["c"])]),
              (1, [(⟨"d", 0, ""⟩, ["d"])]),
              (2, [(⟨"d", 1, ""⟩, [])]),
              (3, [(⟨"e", 0, ""⟩, ["e"])])],
    byKey := [("a", 0), ("b", 1), ("c", 2), ("d", 3), ("e", 4)],
    next := 0 }

/-- A two-item cycle `a ↔ b` with no root item at all. -/
def twoCycleS : NState :=
  { items := [⟨"a", [[⟨1, ""⟩]], none, 0⟩, ⟨"b", [[⟨0, ""⟩]], none, 0⟩],
    added := [],
    links := [(0, [(⟨"b", 0, ""⟩, ["b"])]), (1, [(⟨"a", 0, ""⟩, ["a"])])],
    byKey := [("a", 0), ("b", 1)],
    next := 0 }

/-- A two-item cycle `a ↔ b` reachable from the root `r`. -/
def rootedCycleS : NState :=
  { items := [⟨"r", [], none, 0⟩,
              ⟨"a", [[⟨0, ""⟩], [⟨2, ""⟩]], none, 0⟩,
              ⟨"b", [[⟨1, ""⟩]], none, 0⟩],
    added := [],
    links := [(0, [(⟨"a", 0, ""⟩, ["a"])]),
              (1, [(⟨"b", 0, ""⟩, ["b"])]),
              (2, [(⟨"a", 1, ""⟩, ["a"])])],
    byKey := [("r", 0), ("a", 1), ("b", 2)],
    next := 0 }

/-- `rootedCycleS` after `removeLoops`: exactly the cycle link from `b`
back into `a` is gone. -/
def rootedCycleExpected : NState :=
  { items := [⟨"r", [], none, 0⟩,
              ⟨"a", [[⟨0, ""⟩], []], none, 0⟩,
              ⟨"b", [[⟨1, ""⟩]], none, 0⟩],
    added := [],
    links := [(0, [(⟨"a", 0, ""⟩, ["a"])]),
              (1, [(⟨"b", 0, ""⟩, ["b"])]),
              (2, [(⟨"a", 1, ""⟩, [])])],
    byKey := [("r", 0), ("a", 1), ("b", 2)],
    next := 0 }

/-- Twelve items: a shared root source, eight fresh dummies that advance
the id counter, two structurally identical items (indices 2 and 11) with
vertex digest `D`, and one item (index 10) with the same digest whose
slot-0 links subsume theirs. -/
def arenaC8 : List ItemA :=
  [⟨"s", [], none, 0⟩,
   ⟨"d1", [[⟨0, ""⟩]], none, 0⟩,
   ⟨"D", [[⟨0, ""⟩]], none, 0⟩,
   ⟨"d2", [[⟨0, ""⟩]], none, 0⟩,
   ⟨"d3", [[⟨0, ""⟩]], none, 0⟩,
   ⟨"d4", [[⟨0, ""⟩]], none, 0⟩,
   ⟨"d5", [[⟨0, ""⟩]], none, 0⟩,
   ⟨"d6", [[⟨0, ""⟩]], none, 0⟩,
   ⟨"d7", [[⟨0, ""⟩]], none, 0⟩,
   ⟨"d8", [[⟨0, ""⟩]], none, 0⟩,
   ⟨"D", [[⟨0, ""⟩], [⟨0, "q"⟩]], none, 0⟩,
   ⟨"D", [[⟨0, ""⟩]], none, 0⟩]

def nsC8 : NState := { items := arenaC8, added := [], links := [], byKey := [], next := 0 }

/-- Root source plus two structurally identical items, nothing else. -/
def arenaC8b : List ItemA :=
  [⟨"s", [], none, 0⟩, ⟨"D", [[⟨0, ""⟩]], none, 0⟩, ⟨"D", [[⟨0, ""⟩]], none, 0⟩]

def nsC8b : NState := { items := arenaC8b, added := [], links := [], byKey := [], next := 0 }

/-- Arena with an item whose second input slot is empty. -/
def arenaC7 : List ItemA := [⟨"s", [], none, 0⟩, ⟨"x", [[⟨0, ""⟩], []], none, 0⟩]

def nsC7 : NState := { items := arenaC7, added := [], links := [], byKey := [], next := 0 }

/-- A state in which the source item `0` is already normalized, for
exercising one `normalizeItem` call in isolation. -/
def nsC6 : NState :=
  { items := [⟨"s", [], none, 0⟩, ⟨"x", [[⟨0, ""⟩]], none, 0⟩],
    added := [(0, 0)], links := [], byKey := [("s", 0)], next := 0 }

/-- An item that links to itself. -/
def selfLoopA : List ItemA := [⟨"a", [[⟨0, ""⟩]], none, 0⟩]

/-- A small acyclic arena for the termination witness. -/
def chainA : List ItemA := [⟨"s", [], some ["x"], 0⟩, ⟨"t", [[⟨0, ""⟩]], some ["x", "y"], 0⟩]

/-- Initial normalization state over an arena. -/
def initNState (A : List ItemA) : NState :=
  { items := A, added := [], links := [], byKey := [], next := 0 }

/-- The config marshalling `itemZA` produces. -/
def ccZA : CacheConfig :=
  { Layers := [⟨"z", -1⟩, ⟨"a", 0⟩],
    Records := [⟨"v", [], [⟨1, 0⟩]⟩] }

/-- The canonical item `normalizeItem` assigned to item `i` after
normalizing `targets` in order (read off `state.added`). -/
def canonicalAssignment (targets : List Nat) (fuel : Nat) (s : NState) (i : Nat) :
    Option Nat :=
  match normalizeAll targets fuel s with
  | some (.ok s') => alookup s'.added i
  | _ => none

/-- Some id occurs in one of the normalized-link sets of `state.links`. -/
def InLinks (s : NState) (id : String) : Prop :=
  ∃ k entry p, alookup s.links k = some entry ∧ p ∈ entry ∧ id ∈ p.2

/-- The state invariant `normalizeItem` maintains over an arena `A`:
lengths agree, unprocessed items still carry their original links,
processed items had no reachable empty slot, every id registered in
`state.links` is a `byKey` key, and every `byKey` target is processed. -/
def NInv (A : List ItemA) (s : NState) : Prop :=
  s.items.length = A.length ∧
  (∀ j, alookup s.added j = none → s.items.get? j = A.get? j) ∧
  (∀ j c, alookup s.added j = some c → ¬ EmptyReach A j) ∧
  (∀ id, InLinks s id → (alookup s.byKey id).isSome) ∧
  (∀ id c, alookup s.byKey id = some c → (alookup s.added c).isSome)

/-- Monotonicity of a `normalizeItem` step: processed items stay
processed and `byKey` keys persist. -/
def NMono (s s' : NState) : Prop :=
  (∀ j, (alookup s.added j).isSome → (alookup s'.added j).isSome) ∧
  (∀ id, (alookup s.byKey id).isSome → (alookup s'.byKey id).isSome)

/-- The induction statement for `normalizeItem` at a given fuel: on an
invariant state, a valid in-bounds item with rank below the fuel
normalizes to a value; the result is an error exactly when an empty
input slot is reachable; on success the invariant is maintained, the
item is processed, the state grows monotonically and every newly
processed item has rank at most the item's. -/
def NormSpec (A : List ItemA) (rank : Nat → Nat) (f : Nat) : Prop :=
  ∀ i s, NInv A s → i < A.length → rank i < f →
    ∃ r, normalizeItemF f s i = some r ∧
      ((∃ e, r = .error e) ↔ EmptyReach A i) ∧
      (∀ c s', r = .ok (c, s') → NInv A s' ∧ (alookup s'.added i).isSome ∧ NMono s s' ∧
        (∀ j, (alookup s'.added j).isSome →
          (alookup s.added j).isSome ∨ rank j ≤ rank i))

/-! # Lemmas about the string order -/

theorem strLt_eq_decide (a b : String) : strLt a b = decide (a < b) := by
  unfold strLt
  rw [decide_eq_decide, String.lt_iff_toList_lt]
  exact Iff.rfl

theorem strLt_iff {a b : String} : strLt a b = true ↔ a < b := by
  rw [strLt_eq_decide, decide_eq_true_eq]

theorem strLt_irrefl (a : String) : strLt a a = false := by
  rw [strLt_eq_decide]
  simp

/-! # Lemmas about the association-list maps -/

theorem alookup_mem {α β : Type} [DecidableEq α] {m : List (α × β)} {k : α} {v : β}
    (h : alookup m k = some v) : (k, v) ∈ m := by
  induction m with
  | nil => simp [alookup] at h
  | cons p rest ih =>
    obtain ⟨k', v'⟩ := p
    by_cases hk : k' = k
    · subst hk
      simp [alookup] at h
      simp [h]
    · simp [alookup, hk] at h
      exact List.mem_cons_of_mem _ (ih h)

theorem alookup_eq_none_iff {α β : Type} [DecidableEq α] {m : List (α × β)} {k : α} :
    alookup m k = none ↔ k ∉ m.map Prod.fst := by
  induction m with
  | nil => simp [alookup]
  | cons p rest ih =>
    obtain ⟨k', v'⟩ := p
    by_cases hk : k' = k
    · subst hk; simp [alookup]
    · simp [alookup, hk, ih, Ne.symm hk]

theorem alookup_aset_self {α β : Type} [DecidableEq α] (m : List (α × β)) (k : α) (v : β) :
    alookup (aset m k v) k = some v := by
  induction m with
  | nil => simp [aset, alookup]
  | cons p rest ih =>
    obtain ⟨k', v'⟩ := p
    by_cases hk : k' = k
    · subst hk; simp [aset, alookup]
    · simp [aset, alookup, hk, ih]

theorem alookup_aset_of_ne {α β : Type} [DecidableEq α] (m : List (α × β)) {k k' : α}
    (v : β) (h : k ≠ k') : alookup (aset m k v) k' = alookup m k' := by
  induction m with
  | nil => simp [aset, alookup, h]
  | cons p rest ih =>
    obtain ⟨k₀, v₀⟩ := p
    by_cases hk : k₀ = k
    · subst hk; simp [aset, alookup, h]
    · simp [aset, alookup, hk, ih]

theorem aset_of_none {α β : Type} [DecidableEq α] {m : List (α × β)} {k : α}
    (h : alookup m k = none) (v : β) : aset m k v = m ++ [(k, v)] := by
  induction m with
  | nil => simp [aset]
  | cons p rest ih =>
    obtain ⟨k₀, v₀⟩ := p
    by_cases hk : k₀ = k
    · subst hk; simp [alookup] at h
    · simp [alookup, hk] at h
      simp [aset, hk, ih h]

theorem mem_aset {α β : Type} [DecidableEq α] {m : List (α × β)} {k : α} {v : β}
    {p : α × β} (h : p ∈ aset m k v) : p ∈ m ∨ p = (k, v) := by
  induction m with
  | nil => simp [aset] at h; simp [h]
  | cons q rest ih =>
    obtain ⟨k₀, v₀⟩ := q
    by_cases hk : k₀ = k
    · subst hk
      simp [aset] at h
      rcases h with h | h
      · right; simp [h]
      · left; exact List.mem_cons_of_mem _ h
    · simp [aset, hk] at h
      rcases h with h | h
      · left; simp [h]
      · rcases ih h with h' | h'
        · left; exact List.mem_cons_of_mem _ h'
        · right; exact h'

theorem isSome_alookup_aset {α β : Type} [DecidableEq α] (m : List (α × β)) (k k' : α)
    (v : β) (h : (alookup m k').isSome) : (alookup (aset m k v) k').isSome := by
  by_cases hk : k = k'
  · subst hk; simp [alookup_aset_self]
  · rwa [alookup_aset_of_ne m v hk]

theorem mem_insertNew {α : Type} [DecidableEq α] {xs : List α} {a b : α} :
    a ∈ insertNew xs b ↔ a ∈ xs ∨ a = b := by
  unfold insertNew
  by_cases h : b ∈ xs
  · simp only [if_pos h]
    constructor
    · exact fun h' => Or.inl h'
    · rintro (h' | rfl) <;> [exact h'; exact h]
  · simp [if_neg h]

/-! # The early-return comparator framework -/

theorem obNeg_obThen (a b : Option Bool) : obNeg (obThen a b) = obThen (obNeg a) (obNeg b) := by
  cases a <;> simp [obNeg, obThen]

theorem obThen_eq_none_iff {a b : Option Bool} : obThen a b = none ↔ a = none ∧ b = none := by
  cases a <;> simp [obThen]

theorem keyCmp_eq_true_iff {κ : Type} [LinearOrder κ] {u v : κ} :
    keyCmp u v = some true ↔ u < v := by
  unfold keyCmp
  rcases lt_trichotomy u v with h | h | h
  · simp [h]
  · simp [h, lt_irrefl]
  · simp [not_lt_of_lt h, h]

theorem keyCmp_eq_none_iff {κ : Type} [LinearOrder κ] {u v : κ} :
    keyCmp u v = none ↔ u = v := by
  unfold keyCmp
  rcases lt_trichotomy u v with h | h | h
  · simp [h, ne_of_lt h]
  · simp [h, lt_irrefl]
  · simp [not_lt_of_lt h, h, (ne_of_lt h).symm]

theorem isLexCmp_keyCmp {κ : Type} [LinearOrder κ] : IsLexCmp (fun u v : κ => keyCmp u v) := by
  constructor
  · intro x y
    rcases lt_trichotomy x y with h | h | h <;>
      simp [keyCmp, h, lt_irrefl, not_lt_of_lt, obNeg]
  · intro x y z hxy hyz
    rw [keyCmp_eq_true_iff] at hxy hyz ⊢
    exact lt_trans hxy hyz
  · intro x y hxy z
    rw [keyCmp_eq_none_iff] at hxy
    subst hxy
    exact ⟨rfl, rfl⟩

theorem IsLexCmp.comap {α β : Type} {c : β → β → Option Bool} (h : IsLexCmp c)
    (g : α → β) : IsLexCmp (fun x y => c (g x) (g y)) := by
  constructor
  · intro x y; exact h.mirror (g x) (g y)
  · intro x y z; exact h.transT (g x) (g y) (g z)
  · intro x y hxy z; exact h.congrN (g x) (g y) hxy (g z)

theorem IsLexCmp.comp {α : Type} {c₁ c₂ : α → α → Option Bool}
    (h₁ : IsLexCmp c₁) (h₂ : IsLexCmp c₂) :
    IsLexCmp (fun x y => obThen (c₁ x y) (c₂ x y)) := by
  constructor
  · intro x y
    rw [h₁.mirror, h₂.mirror, obNeg_obThen]
  · intro x y z hxy hyz
    simp only at hxy hyz ⊢
    cases h1 : c₁ x y with
    | some b =>
      rw [h1] at hxy
      simp [obThen] at hxy
      subst hxy
      cases h2 : c₁ y z with
      | some b' =>
        rw [h2] at hyz
        simp [obThen] at hyz
        subst hyz
        have := h₁.transT x y z h1 h2
        simp [obThen, this]
      | none =>
        have := ((h₁.congrN y z h2) x).2
        rw [← this, h1]
        simp [obThen]
    | none =>
      rw [h1] at hxy
      simp [obThen] at hxy
      cases h2 : c₁ y z with
      | some b' =>
        rw [h2] at hyz
        simp [obThen] at hyz
        subst hyz
        have := ((h₁.congrN x y h1) z).1
        rw [this, h2]
        simp [obThen]
      | none =>
        rw [h2] at hyz
        simp [obThen] at hyz
        have hc1 : c₁ x z = none := by
          rw [((h₁.congrN x y h1) z).1, h2]
        rw [hc1]
        simp [obThen]
        exact h₂.transT x y z hxy hyz
  · intro x y hxy z
    simp only at hxy
    rw [obThen_eq_none_iff] at hxy
    obtain ⟨h1, h2⟩ := hxy
    constructor
    · rw [((h₁.congrN x y h1) z).1, ((h₂.congrN x y h2) z).1]
    · rw [((h₁.congrN x y h1) z).2, ((h₂.congrN x y h2) z).2]

theorem IsLexCmp.congr {α : Type} {c c' : α → α → Option Bool}
    (he : ∀ x y, c x y = c' x y) (h : IsLexCmp c') : IsLexCmp c := by
  constructor
  · intro x y; rw [he, he]; exact h.mirror x y
  · intro x y z hxy hyz
    rw [he] at hxy hyz ⊢
    exact h.transT x y z hxy hyz
  · intro x y hxy z
    rw [he] at hxy
    rw [he, he, he, he]
    exact h.congrN x y hxy z

theorem lexList_mirror {α : Type} {c : α → α → Option Bool} (h : IsLexCmp c) :
    ∀ xs ys, lexListCmpBy c ys xs = obNeg (lexListCmpBy c xs ys) := by
  intro xs
  induction xs with
  | nil => intro ys; cases ys <;> simp [lexListCmpBy, obNeg]
  | cons x xs ih =>
    intro ys
    cases ys with
    | nil => simp [lexListCmpBy, obNeg]
    | cons y ys =>
      show obThen (c y x) (lexListCmpBy c ys xs) = _
      rw [h.mirror x y, ih ys, ← obNeg_obThen]
      rfl

theorem lexList_transT_eqlen {α : Type} {c : α → α → Option Bool} (h : IsLexCmp c) :
    ∀ xs ys zs, xs.length = ys.length → ys.length = zs.length →
      lexListCmpBy c xs ys = some true → lexListCmpBy c ys zs = some true →
      lexListCmpBy c xs zs = some true := by
  intro xs
  induction xs with
  | nil =>
    intro ys zs h1 _ hxy
    cases ys <;> simp_all [lexListCmpBy]
  | cons x xs ih =>
    intro ys zs h1 h2 hxy hyz
    cases ys with
    | nil => simp at h1
    | cons y ys =>
      cases zs with
      | nil => simp at h2
      | cons z zs =>
        show obThen (c x z) (lexListCmpBy c xs zs) = some true
        have hxy' : obThen (c x y) (lexListCmpBy c xs ys) = some true := hxy
        have hyz' : obThen (c y z) (lexListCmpBy c ys zs) = some true := hyz
        cases h1' : c x y with
        | some b =>
          rw [h1'] at hxy'
          simp [obThen] at hxy'
          subst hxy'
          cases h2' : c y z with
          | some b' =>
            rw [h2'] at hyz'
            simp [obThen] at hyz'
            subst hyz'
            rw [h.transT x y z h1' h2']
            rfl
          | none =>
            rw [← ((h.congrN y z h2') x).2, h1']
            rfl
        | none =>
          rw [h1'] at hxy'
          simp [obThen] at hxy'
          cases h2' : c y z with
          | some b' =>
            rw [h2'] at hyz'
            simp [obThen] at hyz'
            subst hyz'
            rw [((h.congrN x y h1') z).1, h2']
            rfl
          | none =>
            rw [h2'] at hyz'
            simp [obThen] at hyz'
            have : c x z = none := by rw [((h.congrN x y h1') z).1, h2']
            rw [this]
            simp [obThen]
            exact ih ys zs (by simpa using h1) (by simpa using h2) hxy' hyz'

theorem lexList_congr_eqlen {α : Type} {c : α → α → Option Bool} (h : IsLexCmp c) :
    ∀ xs ys, xs.length = ys.length → lexListCmpBy c xs ys = none →
      ∀ zs, lexListCmpBy c xs zs = lexListCmpBy c ys zs ∧
            lexListCmpBy c zs xs = lexListCmpBy c zs ys := by
  intro xs
  induction xs with
  | nil =>
    intro ys _ _ zs
    cases ys <;> simp_all
  | cons x xs ih =>
    intro ys hlen hnone zs
    cases ys with
    | nil => simp at hlen
    | cons y ys =>
      have hnone' : obThen (c x y) (lexListCmpBy c xs ys) = none := hnone
      rw [obThen_eq_none_iff] at hnone'
      obtain ⟨hc, hrest⟩ := hnone'
      cases zs with
      | nil => exact ⟨rfl, rfl⟩
      | cons z zs =>
        have hhead := h.congrN x y hc z
        have htail := ih ys (by simpa using hlen) hrest zs
        constructor
        · show obThen (c x z) (lexListCmpBy c xs zs) = obThen (c y z) (lexListCmpBy c ys zs)
          rw [hhead.1, htail.1]
        · show obThen (c z x) (lexListCmpBy c zs xs) = obThen (c z y) (lexListCmpBy c zs ys)
          rw [hhead.2, htail.2]

theorem isLexCmp_lenLex {α : Type} {c : α → α → Option Bool} (h : IsLexCmp c) :
    IsLexCmp (lenLexCmpBy c) := by
  constructor
  · intro x y
    unfold lenLexCmpBy
    rw [obNeg_obThen, lexList_mirror h, (isLexCmp_keyCmp (κ := Nat)).mirror]
  · intro x y z hxy hyz
    unfold lenLexCmpBy at hxy hyz ⊢
    rcases Nat.lt_trichotomy x.length y.length with h1 | h1 | h1
    · rcases Nat.lt_trichotomy y.length z.length with h2 | h2 | h2
      · have : x.length < z.length := lt_trans h1 h2
        rw [keyCmp_eq_true_iff.mpr this]; rfl
      · have : x.length < z.length := h2 ▸ h1
        rw [keyCmp_eq_true_iff.mpr this]; rfl
      · rw [show keyCmp y.length z.length = some false by
            simp [keyCmp, not_lt_of_lt h2, h2]] at hyz
        simp [obThen] at hyz
    · rcases Nat.lt_trichotomy y.length z.length with h2 | h2 | h2
      · have : x.length < z.length := h1 ▸ h2
        rw [keyCmp_eq_true_iff.mpr this]; rfl
      · have h3 : x.length = z.length := h1.trans h2
        rw [keyCmp_eq_none_iff.mpr h1] at hxy
        rw [keyCmp_eq_none_iff.mpr h2] at hyz
        rw [keyCmp_eq_none_iff.mpr h3]
        simp [obThen] at hxy hyz ⊢
        exact lexList_transT_eqlen h x y z h1 h2 hxy hyz
      · rw [show keyCmp y.length z.length = some false by
            simp [keyCmp, not_lt_of_lt h2, h2]] at hyz
        simp [obThen] at hyz
    · rw [show keyCmp x.length y.length = some false by
          simp [keyCmp, not_lt_of_lt h1, h1]] at hxy
      simp [obThen] at hxy
  · intro x y hxy z
    unfold lenLexCmpBy at hxy ⊢
    rw [obThen_eq_none_iff] at hxy
    obtain ⟨hlen, hrest⟩ := hxy
    rw [keyCmp_eq_none_iff] at hlen
    have hc := lexList_congr_eqlen h x y hlen hrest z
    constructor
    · rw [hlen, hc.1]
    · rw [hlen, hc.2]

theorem keyCmp_of_ne {κ : Type} [LinearOrder κ] {u v : κ} (h : u ≠ v) :
    keyCmp u v = some (decide (u < v)) := by
  rcases lt_trichotomy u v with h' | h' | h'
  · simp [keyCmp, h']
  · exact absurd h' h
  · simp [keyCmp, not_lt_of_lt h', h']

theorem keyCmp_getD_false {κ : Type} [LinearOrder κ] (u v : κ) :
    (keyCmp u v).getD false = decide (u < v) := by
  by_cases h : u = v
  · subst h; simp [keyCmp, lt_irrefl]
  · rw [keyCmp_of_ne h]; rfl

theorem entryPairCmp_eq (rs : List CacheRecord) (x y : CacheInput) :
    entryPairCmp rs x y =
      obThen (keyCmp x.Selector y.Selector)
        (keyCmp (inputDigestAt rs x.LinkIndex) (inputDigestAt rs y.LinkIndex)) := by
  unfold entryPairCmp
  by_cases h1 : x.Selector = y.Selector
  · simp only [h1, ne_eq, not_true_eq_false, if_false, ite_not]
    rw [keyCmp_eq_none_iff.mpr rfl]
    by_cases h2 : inputDigestAt rs x.LinkIndex = inputDigestAt rs y.LinkIndex
    · simp only [h2, obThen]
      simp [(keyCmp_eq_none_iff.mpr (rfl : inputDigestAt rs y.LinkIndex = inputDigestAt rs y.LinkIndex))]
    · simp [h2, keyCmp_of_ne h2, obThen]
      rfl
  · simp [h1, keyCmp_of_ne h1, obThen]
    rfl

theorem isLexCmp_entryPairCmp (rs : List CacheRecord) : IsLexCmp (entryPairCmp rs) :=
  IsLexCmp.congr (entryPairCmp_eq rs)
    (IsLexCmp.comp (IsLexCmp.comap isLexCmp_keyCmp _)
      (IsLexCmp.comap isLexCmp_keyCmp _))

theorem entriesCmp_eq_lexList (rs : List CacheRecord) :
    ∀ xs ys, entriesCmp rs xs ys = lexListCmpBy (entryPairCmp rs) xs ys := by
  intro xs
  induction xs with
  | nil => intro ys; cases ys <;> rfl
  | cons x xs ih =>
    intro ys
    cases ys with
    | nil => rfl
    | cons y ys =>
      show (match entryPairCmp rs x y with
            | some b => some b
            | none => entriesCmp rs xs ys) = obThen (entryPairCmp rs x y) _
      cases entryPairCmp rs x y with
      | some b => rfl
      | none => simpa [obThen] using ih ys

theorem slotsCmp_eq_lexList (rs : List CacheRecord) :
    ∀ xss yss, slotsCmp rs xss yss =
      lexListCmpBy (lenLexCmpBy (entryPairCmp rs)) xss yss := by
  intro xss
  induction xss with
  | nil => intro yss; cases yss <;> rfl
  | cons xs xss ih =>
    intro yss
    cases yss with
    | nil => rfl
    | cons ys yss =>
      show (if xs.length ≠ ys.length then some (decide (xs.length < ys.length))
            else match entriesCmp rs xs ys with
                 | some b => some b
                 | none => slotsCmp rs xss yss) = _
      show _ = obThen (lenLexCmpBy (entryPairCmp rs) xs ys) (lexListCmpBy _ xss yss)
      unfold lenLexCmpBy
      by_cases h : xs.length = ys.length
      · rw [keyCmp_eq_none_iff.mpr h]
        simp only [h, ne_eq, not_true_eq_false, if_false]
        rw [entriesCmp_eq_lexList rs xs ys]
        show (match lexListCmpBy (entryPairCmp rs) xs ys with
              | some b => some b
              | none => slotsCmp rs xss yss) = _
        cases lexListCmpBy (entryPairCmp rs) xs ys with
        | some b => rfl
        | none => simpa [obThen] using ih yss
      · rw [keyCmp_of_ne h]
        simp [h, obThen]

theorem recCmpOB_eq (rs : List CacheRecord) (a b : CacheRecord) :
    recCmpOB rs a b =
      obThen (keyCmp a.Digest b.Digest)
        (lenLexCmpBy (lenLexCmpBy (entryPairCmp rs)) a.Inputs b.Inputs) := by
  unfold recCmpOB
  rw [slotsCmp_eq_lexList]
  rfl

theorem isLexCmp_recCmpOB (rs : List CacheRecord) : IsLexCmp (recCmpOB rs) := by
  refine IsLexCmp.congr (recCmpOB_eq rs) ?_
  exact IsLexCmp.comp (IsLexCmp.comap isLexCmp_keyCmp _)
    (IsLexCmp.comap (isLexCmp_lenLex (isLexCmp_lenLex (isLexCmp_entryPairCmp rs))) _)

theorem recordLt_eq_getD (rs : List CacheRecord) (a b : CacheRecord) :
    recordLt rs a b = (recCmpOB rs a b).getD false := by
  unfold recordLt recCmpOB
  by_cases h1 : a.Digest = b.Digest
  · rw [keyCmp_eq_none_iff.mpr h1]
    simp only [h1, ne_eq, not_true_eq_false, if_false]
    by_cases h2 : a.Inputs.length = b.Inputs.length
    · rw [keyCmp_eq_none_iff.mpr h2]
      simp [h2, obThen]
    · rw [keyCmp_of_ne h2]
      simp [h2, obThen]
  · rw [keyCmp_of_ne h1]
    simp [h1, obThen]
    rfl

theorem layerCmpOB_isLex : IsLexCmp layerCmpOB := by
  refine IsLexCmp.congr (fun a b => rfl) ?_
  exact IsLexCmp.comp (IsLexCmp.comap isLexCmp_keyCmp CacheLayer.Blob)
    (IsLexCmp.comap isLexCmp_keyCmp CacheLayer.ParentIndex)

theorem layerLtB_eq_getD (a b : CacheLayer) :
    layerLtB a b = (layerCmpOB a b).getD false := by
  unfold layerLtB layerCmpOB
  by_cases h1 : a.Blob = b.Blob
  · rw [keyCmp_eq_none_iff.mpr h1]
    simp [h1, obThen, keyCmp_getD_false, strLt_irrefl]
  · rw [keyCmp_of_ne h1]
    have hbe : (a.Blob == b.Blob) = false := by
      simp [h1]
    simp [hbe, obThen, strLt_eq_decide]

theorem getD_false_eq_false_iff {o : Option Bool} :
    o.getD false = false ↔ o ≠ some true := by
  cases o with
  | none => simp
  | some b => cases b <;> simp

theorem IsLexCmp.notT_trans {α : Type} {c : α → α → Option Bool} (h : IsLexCmp c)
    {x y z : α} (h1 : c y x ≠ some true) (h2 : c z y ≠ some true) :
    c z x ≠ some true := by
  intro hzx
  cases hzy : c z y with
  | some b =>
    cases b with
    | true => exact h2 hzy
    | false =>
      have : c y z = some true := by
        have := h.mirror z y
        rw [hzy] at this
        simpa [obNeg] using this
      exact h1 (h.transT y z x this hzx)
  | none =>
    exact h1 (((h.congrN z y hzy) x).1 ▸ hzx)

theorem IsLexCmp.notT_total {α : Type} {c : α → α → Option Bool} (h : IsLexCmp c)
    (x y : α) : c y x ≠ some true ∨ c x y ≠ some true := by
  by_cases h1 : c y x = some true
  · right
    intro h2
    have := h.mirror x y
    rw [h1] at this
    rw [h2] at this
    simp [obNeg] at this
  · left; exact h1

/-! # The stable structural sort -/

theorem insertLe_perm {α : Type} (le : α → α → Bool) (a : α) (l : List α) :
    List.Perm (insertLe le a l) (a :: l) := by
  induction l with
  | nil => simp [insertLe]
  | cons b l ih =>
    unfold insertLe
    by_cases h : le a b
    · simp [h]
    · simp only [h, if_false, Bool.false_eq_true]
      exact (ih.cons b).trans (List.Perm.swap a b l)

theorem sortLe_perm {α : Type} (le : α → α → Bool) (l : List α) :
    List.Perm (sortLe le l) l := by
  induction l with
  | nil => simp [sortLe]
  | cons a l ih => exact (insertLe_perm le a (sortLe le l)).trans (ih.cons a)

theorem sortLe_length {α : Type} (le : α → α → Bool) (l : List α) :
    (sortLe le l).length = l.length := (sortLe_perm le l).length_eq

theorem mem_insertLe {α : Type} {le : α → α → Bool} {a x : α} {l : List α} :
    x ∈ insertLe le a l ↔ x = a ∨ x ∈ l := by
  rw [(insertLe_perm le a l).mem_iff]
  simp

theorem pairwise_insertLe {α : Type} {le : α → α → Bool}
    (htrans : ∀ x y z, le x y = true → le y z = true → le x z = true)
    (htot : ∀ x y, (le x y || le y x) = true)
    (a : α) {l : List α} (h : l.Pairwise (fun x y => le x y = true)) :
    (insertLe le a l).Pairwise (fun x y => le x y = true) := by
  induction l with
  | nil => simp [insertLe]
  | cons b l ih =>
    unfold insertLe
    by_cases hab : le a b = true
    · simp only [hab, if_true]
      refine List.Pairwise.cons ?_ h
      intro x hx
      rcases List.mem_cons.mp hx with rfl | hx
      · exact hab
      · exact htrans a b x hab (List.rel_of_pairwise_cons h hx)
    · simp only [hab, if_false]
      have hba : le b a = true := by
        have h' := htot a b
        simp only [Bool.or_eq_true] at h'
        rcases h' with h' | h'
        · exact absurd h' hab
        · exact h'
      refine List.Pairwise.cons ?_ (ih (List.Pairwise.sublist (List.sublist_cons_self b l) h))
      intro x hx
      rcases mem_insertLe.mp hx with rfl | hx
      · exact hba
      · exact List.rel_of_pairwise_cons h hx

theorem pairwise_sortLe {α : Type} {le : α → α → Bool}
    (htrans : ∀ x y z, le x y = true → le y z = true → le x z = true)
    (htot : ∀ x y, (le x y || le y x) = true) (l : List α) :
    (sortLe le l).Pairwise (fun x y => le x y = true) := by
  induction l with
  | nil => simp [sortLe]
  | cons a l ih => exact pairwise_insertLe htrans htot a ih

theorem insertLe_of_le_head {α : Type} {le : α → α → Bool} {a : α} {l : List α}
    (h : ∀ x ∈ l, le a x = true) : insertLe le a l = a :: l := by
  cases l with
  | nil => rfl
  | cons b l => simp [insertLe, h b (List.mem_cons_self b l)]

theorem sortLe_of_pairwise {α : Type} {le : α → α → Bool} {l : List α}
    (h : l.Pairwise (fun x y => le x y = true)) : sortLe le l = l := by
  induction l with
  | nil => rfl
  | cons a l ih =>
    unfold sortLe
    rw [ih (List.Pairwise.sublist (List.sublist_cons_self a l) h)]
    exact insertLe_of_le_head (fun x hx => List.rel_of_pairwise_cons h hx)

/-! # Facts about sorting the enumerated arrays -/

theorem enum_self_mem {α : Type} (l : List α) {i : Nat} (h : i < l.length) :
    (i, l.get ⟨i, h⟩) ∈ l.enum := by
  rw [List.mem_iff_getElem]
  exact ⟨i, by simpa using h, by simp [List.getElem_enum]⟩

theorem sortedEnum_length {α : Type} (l : List α) (le : Nat × α → Nat × α → Bool) :
    (sortLe le l.enum).length = l.length := by
  rw [sortLe_length, List.enum_length]

theorem mem_sortedEnum {α : Type} {l : List α} {le : Nat × α → Nat × α → Bool}
    {p : Nat × α} (hp : p ∈ sortLe le l.enum) :
    ∃ h : p.1 < l.length, l.get ⟨p.1, h⟩ = p.2 := by
  have hp' : p ∈ l.enum := (sortLe_perm le l.enum).mem_iff.mp hp
  rw [List.mem_iff_getElem] at hp'
  obtain ⟨n, hn, he⟩ := hp'
  rw [List.getElem_enum] at he
  obtain ⟨p1, p2⟩ := p
  injection he with h1 h2
  subst h1
  subst h2
  exact ⟨by simpa using hn, by simp [List.get_eq_getElem]⟩

theorem sortedEnum_fst_nodup {α : Type} (l : List α) (le : Nat × α → Nat × α → Bool) :
    ((sortLe le l.enum).map Prod.fst).Nodup := by
  have hperm : List.Perm ((sortLe le l.enum).map Prod.fst) (l.enum.map Prod.fst) :=
    (sortLe_perm le l.enum).map Prod.fst
  rw [hperm.nodup_iff, List.enum_map_fst]
  exact List.nodup_range l.length

theorem sortedEnum_findIdx_lt {α : Type} {l : List α} (le : Nat × α → Nat × α → Bool)
    {old : Nat} (h : old < l.length) :
    (sortLe le l.enum).findIdx (fun p => p.1 == old) < (sortLe le l.enum).length := by
  apply List.findIdx_lt_length_of_exists
  refine ⟨(old, l.get ⟨old, h⟩), ?_, by simp⟩
  exact (sortLe_perm le l.enum).mem_iff.mpr (enum_self_mem l h)

theorem sortedEnum_findIdx_fst {α : Type} {l : List α} (le : Nat × α → Nat × α → Bool)
    {old : Nat} (h : old < l.length) :
    ((sortLe le l.enum).get
      ⟨(sortLe le l.enum).findIdx (fun p => p.1 == old),
       sortedEnum_findIdx_lt le h⟩).1 = old := by
  have := List.findIdx_getElem (w := sortedEnum_findIdx_lt le h)
  rw [List.get_eq_getElem]
  simpa using this

/-- The layer phase of `sortConfig`, spelled out. -/
theorem sortConfig_Layers_def (cc : CacheConfig) :
    (sortConfig cc).Layers =
      (sortLe (fun a b => !(layerLtB b.2 a.2)) cc.Layers.enum).map (fun p =>
        { p.2 with
          ParentIndex :=
            if p.2.ParentIndex == -1 then (-1 : Int)
            else Int.ofNat ((sortLe (fun a b => !(layerLtB b.2 a.2)) cc.Layers.enum).findIdx
              (fun q => q.1 == p.2.ParentIndex.toNat)) }) := rfl

/-- The record phase of `sortConfig`, spelled out. -/
theorem sortConfig_Records_def (cc : CacheConfig) :
    (sortConfig cc).Records =
      (sortLe (fun a b => !(recordLt cc.Records b.2 a.2)) cc.Records.enum).map (fun p =>
        { p.2 with
          Results := p.2.Results.map (fun res =>
            { res with
              LayerIndex := (sortLe (fun a b => !(layerLtB b.2 a.2)) cc.Layers.enum).findIdx
                (fun q => q.1 == res.LayerIndex) })
          Inputs := p.2.Inputs.map (fun slot =>
            sortLe (fun a b => decide (a.LinkIndex ≤ b.LinkIndex))
              (slot.map (fun inp =>
                { inp with
                  LinkIndex := (sortLe (fun a b => !(recordLt cc.Records b.2 a.2))
                      cc.Records.enum).findIdx
                    (fun q => q.1 == inp.LinkIndex) }))) }) := rfl

theorem layerLe_bridge {p q : Nat × CacheLayer} :
    ((!(layerLtB q.2 p.2)) = true) ↔ layerCmpOB q.2 p.2 ≠ some true := by
  rw [Bool.not_eq_true', layerLtB_eq_getD, getD_false_eq_false_iff]

theorem layerLe_trans : ∀ (a b c : Nat × CacheLayer),
    (!(layerLtB b.2 a.2)) = true → (!(layerLtB c.2 b.2)) = true →
    (!(layerLtB c.2 a.2)) = true := by
  have hC : IsLexCmp (fun p q : Nat × CacheLayer => layerCmpOB p.2 q.2) :=
    layerCmpOB_isLex.comap Prod.snd
  intro a b c h1 h2
  rw [layerLe_bridge] at h1 h2 ⊢
  exact hC.notT_trans h1 h2

theorem layerLe_total : ∀ (a b : Nat × CacheLayer),
    ((!(layerLtB b.2 a.2)) || (!(layerLtB a.2 b.2))) = true := by
  have hC : IsLexCmp (fun p q : Nat × CacheLayer => layerCmpOB p.2 q.2) :=
    layerCmpOB_isLex.comap Prod.snd
  intro a b
  rcases hC.notT_total a b with h | h
  · simp only [Bool.or_eq_true]; exact Or.inl (layerLe_bridge.mpr h)
  · simp only [Bool.or_eq_true]; exact Or.inr (layerLe_bridge.mpr h)

theorem sortedLayers_pairwise (cc : CacheConfig) :
    (sortLe (fun a b => !(layerLtB b.2 a.2)) cc.Layers.enum).Pairwise
      (fun p q => layerCmpOB q.2 p.2 ≠ some true) := by
  exact (pairwise_sortLe layerLe_trans layerLe_total cc.Layers.enum).imp
    (fun h => layerLe_bridge.mp h)

theorem recordLe_bridge {rs : List CacheRecord} {p q : Nat × CacheRecord} :
    ((!(recordLt rs q.2 p.2)) = true) ↔ recCmpOB rs q.2 p.2 ≠ some true := by
  rw [Bool.not_eq_true', recordLt_eq_getD, getD_false_eq_false_iff]

theorem recordLe_trans (rs : List CacheRecord) : ∀ (a b c : Nat × CacheRecord),
    (!(recordLt rs b.2 a.2)) = true → (!(recordLt rs c.2 b.2)) = true →
    (!(recordLt rs c.2 a.2)) = true := by
  have hC : IsLexCmp (fun p q : Nat × CacheRecord => recCmpOB rs p.2 q.2) :=
    (isLexCmp_recCmpOB rs).comap Prod.snd
  intro a b c h1 h2
  rw [recordLe_bridge] at h1 h2 ⊢
  exact hC.notT_trans h1 h2

theorem recordLe_total (rs : List CacheRecord) : ∀ (a b : Nat × CacheRecord),
    ((!(recordLt rs b.2 a.2)) || (!(recordLt rs a.2 b.2))) = true := by
  have hC : IsLexCmp (fun p q : Nat × CacheRecord => recCmpOB rs p.2 q.2) :=
    (isLexCmp_recCmpOB rs).comap Prod.snd
  intro a b
  rcases hC.notT_total a b with h | h
  · simp only [Bool.or_eq_true]; exact Or.inl (recordLe_bridge.mpr h)
  · simp only [Bool.or_eq_true]; exact Or.inr (recordLe_bridge.mpr h)

theorem sortedRecords_pairwise (cc : CacheConfig) :
    (sortLe (fun a b => !(recordLt cc.Records b.2 a.2)) cc.Records.enum).Pairwise
      (fun p q => recCmpOB cc.Records q.2 p.2 ≠ some true) := by
  exact (pairwise_sortLe (recordLe_trans cc.Records) (recordLe_total cc.Records)
    cc.Records.enum).imp (fun h => recordLe_bridge.mp h)

theorem sortConfig_layers_blob_le (cc : CacheConfig) :
    (sortConfig cc).Layers.Pairwise (fun a b => a.Blob ≤ b.Blob) := by
  rw [sortConfig_Layers_def]
  refine List.Pairwise.map _ ?_ (sortedLayers_pairwise cc)
  intro p q hpq
  show p.2.Blob ≤ q.2.Blob
  by_contra hlt
  push_neg at hlt
  apply hpq
  unfold layerCmpOB
  rw [keyCmp_eq_true_iff.mpr hlt]
  rfl

theorem recCmpOB_not_true_proj {rs : List CacheRecord} {a b : CacheRecord}
    (h : recCmpOB rs b a ≠ some true) :
    a.Digest < b.Digest ∨ (a.Digest = b.Digest ∧ a.Inputs.length ≤ b.Inputs.length) := by
  rcases lt_trichotomy a.Digest b.Digest with h1 | h1 | h1
  · exact Or.inl h1
  · right
    refine ⟨h1, ?_⟩
    by_contra har
    push_neg at har
    apply h
    rw [recCmpOB_eq]
    rw [keyCmp_eq_none_iff.mpr h1.symm]
    unfold lenLexCmpBy
    rw [keyCmp_eq_true_iff.mpr har]
    rfl
  · exfalso
    apply h
    rw [recCmpOB_eq]
    rw [keyCmp_eq_true_iff.mpr h1]
    rfl

theorem sortConfig_records_digest_arity (cc : CacheConfig) :
    (sortConfig cc).Records.Pairwise (fun a b =>
      a.Digest < b.Digest ∨ (a.Digest = b.Digest ∧ a.Inputs.length ≤ b.Inputs.length)) := by
  rw [sortConfig_Records_def]
  refine List.Pairwise.map _ ?_ (sortedRecords_pairwise cc)
  intro p q hpq
  have := recCmpOB_not_true_proj hpq
  simpa [List.length_map] using this

theorem linkLe_trans : ∀ (a b c : CacheInput),
    decide (a.LinkIndex ≤ b.LinkIndex) = true → decide (b.LinkIndex ≤ c.LinkIndex) = true →
    decide (a.LinkIndex ≤ c.LinkIndex) = true := by
  intro a b c h1 h2
  simp only [decide_eq_true_eq] at h1 h2 ⊢
  exact le_trans h1 h2

theorem linkLe_total : ∀ (a b : CacheInput),
    (decide (a.LinkIndex ≤ b.LinkIndex) || decide (b.LinkIndex ≤ a.LinkIndex)) = true := by
  intro a b
  rcases Nat.le_total a.LinkIndex b.LinkIndex with h | h <;> simp [h]

theorem sortConfig_slots_sorted (cc : CacheConfig) :
    ∀ r ∈ (sortConfig cc).Records, ∀ slot ∈ r.Inputs,
      slot.Pairwise (fun x y => x.LinkIndex ≤ y.LinkIndex) := by
  intro r hr slot hslot
  rw [sortConfig_Records_def] at hr
  rw [List.mem_map] at hr
  obtain ⟨p, _, rfl⟩ := hr
  simp only [List.mem_map] at hslot
  obtain ⟨slot₀, _, rfl⟩ := hslot
  exact (pairwise_sortLe linkLe_trans linkLe_total _).imp (fun h => by simpa using h)

/-! # Claim C2 -/

/-- C2, counterexample: after `sortConfig`, the layer array is *not*
sorted secondarily by (rewritten) parent index — equal blobs appear with
parent indices 3 then 0 — and the record array is *not* sorted by the
slots' sorted `(selector, parent digest)` pairs: the two `"d"` records
appear with sorted-pairs keys `[("b","a"),("y","b")]` before
`[("a","b"),("z","a")]`.  So the claimed ordering fails on both counts
(the per-slot `LinkIndex` clause does hold). -/
theorem c2_counterexample :
    ¬ ClaimC2 (sortConfig ccC2) ∧
    ¬ (sortConfig ccC2).Layers.Pairwise (fun a b => ¬ layerLtB b a = true) ∧
    ¬ (sortConfig ccC2).Records.Pairwise
        (fun a b => ¬ claimRecordLtB (sortConfig ccC2).Records b a = true) := by
  refine ⟨?_, by decide, by decide⟩
  simp only [ClaimC2]
  decide

/-- C2, amended: after `sortConfig` the Layers array is sorted
(non-decreasingly) by blob digest — ties are ordered by the *pre-rewrite*
parent indices, not the rewritten ones —, the Records array is sorted by
vertex digest and then by arity — further ties are ordered by the
pre-rewrite slot comparison, not by the output slots' sorted pairs —,
and within each record every `Inputs[i]` is sorted by `LinkIndex`. -/
theorem sortConfig_ordering_amended (cc : CacheConfig) :
    (sortConfig cc).Layers.Pairwise (fun a b => a.Blob ≤ b.Blob) ∧
    (sortConfig cc).Records.Pairwise (fun a b =>
      a.Digest < b.Digest ∨ (a.Digest = b.Digest ∧ a.Inputs.length ≤ b.Inputs.length)) ∧
    ∀ r ∈ (sortConfig cc).Records, ∀ slot ∈ r.Inputs,
      slot.Pairwise (fun x y => x.LinkIndex ≤ y.LinkIndex) :=
  ⟨sortConfig_layers_blob_le cc, sortConfig_records_digest_arity cc,
   sortConfig_slots_sorted cc⟩

/-! # Claims C4 and C5 (loop removal) -/

/-- C4, counterexample: `diamondS` is acyclic (every link's source has a
smaller arena index), yet `removeLoops` drops a link: the DFS's visited
set is global, so the second inbound link of the shared item `d` is
treated as a loop even though it only reaches an already-completed
branch. -/
theorem c4_counterexample :
    (∀ i, (h : i < diamondS.items.length) →
        ∀ slot ∈ (diamondS.items.get ⟨i, h⟩).links, ∀ l ∈ slot, l.src < i) ∧
    removeLoops diamondS ≠ diamondS := by
  exact ⟨by decide, by decide⟩

/-- C4, amended: a link is dropped whenever its target was already
visited anywhere earlier in the whole traversal, not only on the current
DFS path: on the acyclic diamond the link from `c` into the shared item
`d` is removed (slot 1 of `d` is emptied and the normalized link entry is
cleared) while all other links are kept. -/
theorem removeLoops_diamond :
    removeLoops diamondS = diamondExpected := by decide

/-- C5, counterexample: a state that contains the two-item cycle
`a ↔ b` and nothing else has no root item (both items have inbound
links), so `removeLoops` never reaches the cycle and drops *neither* of
the two links — not "exactly one". -/
theorem c5_counterexample :
    twoCycleS.items.get? 0 = some ⟨"a", [[⟨1, ""⟩]], none, 0⟩ ∧
    twoCycleS.items.get? 1 = some ⟨"b", [[⟨0, ""⟩]], none, 0⟩ ∧
    removeLoops twoCycleS = twoCycleS := by decide

/-- C5, amended: when the two-item cycle `a ↔ b` is reachable from a
root item, `removeLoops` drops exactly one of the two cycle links (the
one from `b` back into `a`), leaving the other intact. -/
theorem removeLoops_rootedCycle :
    removeLoops rootedCycleS = rootedCycleExpected := by decide

/-! # Claim C10 (termination of marshalling) -/

theorem marshalSlot_isSome {mi : MarshalState → Nat → Option (Except String MarshalState)}
    {ls : List Link} (hmi : ∀ st' l, l ∈ ls → (mi st' l.src).isSome) :
    ∀ st, (marshalSlot mi ls st).isSome := by
  induction ls with
  | nil => intro st; simp [marshalSlot]
  | cons l ls ih =>
    intro st
    unfold marshalSlot
    rcases hmi' : mi st l.src with _ | r
    · have h := hmi st l (List.mem_cons_self l ls)
      rw [hmi'] at h
      simp at h
    · rcases r with e | st'
      · simp [hmi']
      · simp only [hmi']
        rcases hlook : alookup st'.recordsByItem l.src with _ | idx
        · simp [hlook]
        · have hrest := ih (fun st'' l' hl' => hmi st'' l' (List.mem_cons_of_mem l hl')) st'
          rcases hms : marshalSlot mi ls st' with _ | r'
          · rw [hms] at hrest; simp at hrest
          · rcases r' with e | p
            · simp [hlook, hms]
            · simp [hlook, hms]

theorem marshalSlots_isSome {mi : MarshalState → Nat → Option (Except String MarshalState)}
    {slots : List (List Link)}
    (hmi : ∀ st' slot l, slot ∈ slots → l ∈ slot → (mi st' l.src).isSome) :
    ∀ st, (marshalSlots mi slots st).isSome := by
  induction slots with
  | nil => intro st; simp [marshalSlots]
  | cons slot rest ih =>
    intro st
    unfold marshalSlots
    have h1 := marshalSlot_isSome
      (fun st' l hl => hmi st' slot l (List.mem_cons_self slot rest) hl) st
    rcases h1' : marshalSlot mi slot st with _ | r
    · rw [h1'] at h1; simp at h1
    · rcases r with e | p
      · simp [h1']
      · have h2 := ih (fun st' s l hs hl => hmi st' s l (List.mem_cons_of_mem slot hs) hl) p.2
        rcases h2' : marshalSlots mi rest p.2 with _ | r'
        · rw [h2'] at h2; simp at h2
        · rcases r' with e | q
          · simp [h1', h2']
          · simp [h1', h2']

theorem marshalItemF_isSome (A : List ItemA) (prov : Option (String → Bool))
    (rank : Nat → Nat) (hA : RankedArena A rank) :
    ∀ fuel st i, rank i < fuel → (marshalItemF A prov fuel st i).isSome := by
  intro fuel
  induction fuel with
  | zero => intro st i h; omega
  | succ f ih =>
    intro st i _
    unfold marshalItemF
    rcases alookup st.recordsByItem i with _ | c
    · rcases hit : A.get? i with _ | it
      · simp
      · have hlen : i < A.length := by
          by_contra hge
          rw [List.get?_eq_getElem?, List.getElem?_eq_none (by omega)] at hit
          exact Option.noConfusion hit
        have hget : A.get ⟨i, hlen⟩ = it := by
          rw [List.get_eq_getElem, ← Option.some_inj, ← List.getElem?_eq_getElem,
            ← List.get?_eq_getElem?, hit]
        have hmi : ∀ (st' : MarshalState) (slot : List Link) (l : Link), slot ∈ it.links →
            l ∈ slot → ((marshalItemF A prov f) st' l.src).isSome := by
          intro st' slot l hs hl
          apply ih
          have hr := hA i hlen
          rw [hget] at hr
          have hri := hr slot hs l hl
          omega
        have hms := marshalSlots_isSome hmi st
        rcases hms' : marshalSlots (marshalItemF A prov f) it.links st with _ | r
        · rw [hms'] at hms; simp at hms
        · rcases r with e | p
          · simp [hms']
          · obtain ⟨inputs, st1⟩ := p
            rcases hres : it.result with _ | descs
            · simp [hms', hres]
            · rcases halook : alookup (marshalRemote descs prov st1).2.chainsByID
                  (marshalRemote descs prov st1).1 with _ | idx
              · by_cases hid : (marshalRemote descs prov st1).1 = ""
                · simp [hms', hres, hid]
                · simp [hms', hres, hid, halook]
              · by_cases hid : (marshalRemote descs prov st1).1 = ""
                · simp [hms', hres, hid]
                · simp [hms', hres, hid, halook]
    · simp

theorem marshalItemF_selfLoop :
    ∀ fuel, marshalItemF selfLoopA none fuel emptyMarshalState 0 = none := by
  intro fuel
  induction fuel with
  | zero => rfl
  | succ f ih =>
    unfold marshalItemF
    simp only [selfLoopA, emptyMarshalState] at ih
    simp [selfLoopA, emptyMarshalState, alookup, marshalSlots, marshalSlot, ih]

/-- C10: `marshalItem` terminates on every item whose link graph is
acyclic (rank function decreasing along links) once the fuel exceeds the
item's rank — every failure mode still returns a value — and acyclicity
is needed: on a self-referential item the recursion never returns, for
any amount of fuel.  (`marshalRemote` is structurally recursive on the
descriptor prefix length and total by construction.) -/
theorem marshalItem_termination :
    (∀ (A : List ItemA) (prov : Option (String → Bool)) (rank : Nat → Nat),
        RankedArena A rank →
        ∀ fuel st i, rank i < fuel → (marshalItemF A prov fuel st i).isSome) ∧
    (∀ fuel, marshalItemF selfLoopA none fuel emptyMarshalState 0 = none) :=
  ⟨fun A prov rank hA => marshalItemF_isSome A prov rank hA, marshalItemF_selfLoop⟩

/-- Witness for C10 at a concrete acyclic arena and the concrete
self-loop. -/
theorem marshalItem_termination_witness :
    (marshalItemF chainA none 3 emptyMarshalState 1).isSome = true ∧
    marshalItemF selfLoopA none 5 emptyMarshalState 0 = none :=
  ⟨marshalItem_termination.1 chainA none (fun i => i)
      (by unfold RankedArena; decide) 3 emptyMarshalState 1 (by decide),
   marshalItem_termination.2 5⟩

/-! # Marshal-state invariants (layer chains) -/

theorem get_of_get? {α : Type} {l : List α} {i : Nat} {a : α}
    (h : l.get? i = some a) : ∃ hi : i < l.length, l.get ⟨i, hi⟩ = a := by
  have hlt : i < l.length := by
    by_contra hge
    rw [List.get?_eq_getElem?, List.getElem?_eq_none (by omega)] at h
    exact Option.noConfusion h
  refine ⟨hlt, ?_⟩
  rw [List.get_eq_getElem, ← Option.some_inj, ← List.getElem?_eq_getElem,
    ← List.get?_eq_getElem?, h]

theorem get?_append_left {α : Type} {l ex : List α} {i : Nat} (h : i < l.length) :
    (l ++ ex).get? i = l.get? i := by
  rw [List.get?_eq_getElem?, List.get?_eq_getElem?, List.getElem?_append]
  simp [h]

theorem ParentsLtIdx_append {ls : List CacheLayer} {l : CacheLayer}
    (hP : ParentsLtIdx ls)
    (hl : l.ParentIndex = -1 ∨ ∃ j, j < ls.length ∧ l.ParentIndex = (j : Int)) :
    ParentsLtIdx (ls ++ [l]) := by
  intro i h
  have hlen : (ls ++ [l]).length = ls.length + 1 := by simp
  by_cases hi : i < ls.length
  · have h0 := hP i hi
    rw [List.get_eq_getElem, List.getElem_append_left hi]
    rw [List.get_eq_getElem] at h0
    exact h0
  · have hieq : i = ls.length := by omega
    rw [List.get_eq_getElem, List.getElem_concat_length ls l i hieq]
    rcases hl with h1 | ⟨j, hj, h2⟩
    · exact Or.inl h1
    · exact Or.inr ⟨j, by omega, h2⟩

theorem chainIdAt_fuel (ls : List CacheLayer) (hP : ParentsLtIdx ls) :
    ∀ i, i < ls.length → ∀ fuel, i < fuel → chainIdAt ls fuel i = chainId ls i := by
  intro i
  induction i using Nat.strong_induction_on with
  | _ i ihi =>
    intro hi fuel hfuel
    cases fuel with
    | zero => omega
    | succ f =>
      unfold chainId
      show chainIdAt ls (f+1) i = chainIdAt ls (i+1) i
      unfold chainIdAt
      cases hgi : ls.get? i with
      | none => rfl
      | some l =>
        by_cases hpar : l.ParentIndex = -1
        · simp [hpar]
        · simp only [hpar, if_false]
          obtain ⟨hi', hli⟩ := get_of_get? hgi
          have hp := hP i hi'
          rw [hli] at hp
          rcases hp with h1 | ⟨j, hj, h2⟩
          · exact absurd h1 hpar
          · have hpt : l.ParentIndex.toNat = j := by rw [h2]; simp
            rw [hpt]
            have h3 : chainIdAt ls f j = chainId ls j :=
              ihi j (by omega) (by omega) f (by omega)
            have h4 : chainIdAt ls i j = chainId ls j :=
              ihi j (by omega) (by omega) i (by omega)
            rw [h3, h4]

theorem chainIdAt_append (ls ex : List CacheLayer) (hP : ParentsLtIdx ls) :
    ∀ fuel i, i < ls.length → chainIdAt (ls ++ ex) fuel i = chainIdAt ls fuel i := by
  intro fuel
  induction fuel with
  | zero => intro i _; rfl
  | succ f ih =>
    intro i hi
    unfold chainIdAt
    rw [get?_append_left hi]
    cases hgi : ls.get? i with
    | none => rfl
    | some l =>
      by_cases hpar : l.ParentIndex = -1
      · simp [hpar]
      · simp only [hpar, if_false]
        obtain ⟨hi', hli⟩ := get_of_get? hgi
        have hp := hP i hi'
        rw [hli] at hp
        rcases hp with h1 | ⟨j, hj, h2⟩
        · exact absurd h1 hpar
        · have hpt : l.ParentIndex.toNat = j := by rw [h2]; simp
          rw [hpt, ih j (by omega)]

theorem chainId_append (ls ex : List CacheLayer) (hP : ParentsLtIdx ls) {i : Nat}
    (hi : i < ls.length) : chainId (ls ++ ex) i = chainId ls i :=
  chainIdAt_append ls ex hP (i+1) i hi

theorem chainId_step (ls : List CacheLayer) (hP : ParentsLtIdx ls) {i : Nat}
    (hi : i < ls.length) :
    chainId ls i = (ls.get ⟨i, hi⟩).Blob ++
      (if (ls.get ⟨i, hi⟩).ParentIndex = -1 then ""
       else chainId ls (ls.get ⟨i, hi⟩).ParentIndex.toNat) := by
  conv_lhs => unfold chainId chainIdAt
  have hgi : ls.get? i = some (ls.get ⟨i, hi⟩) := by
    rw [List.get?_eq_getElem?, List.getElem?_eq_getElem hi, List.get_eq_getElem]
  rw [hgi]
  by_cases hpar : (ls.get ⟨i, hi⟩).ParentIndex = -1
  · rw [List.get_eq_getElem] at hpar
    simp [hpar]
  · have hp := hP i hi
    rcases hp with h1 | ⟨j, hj, h2⟩
    · exact absurd h1 hpar
    · have hpt : (ls.get ⟨i, hi⟩).ParentIndex.toNat = j := by rw [h2]; simp
      rw [List.get_eq_getElem] at hpar hpt
      simp only [List.get_eq_getElem, hpar, if_false]
      rw [hpt, chainIdAt_fuel ls hP j (by omega) i (by omega)]

theorem marshalRemoteStep_inv (desc pid : String) (st1 : MarshalState)
    (hinv1 : MarshalInv st1)
    (hid1 : pid = "" ∨ ∃ v, alookup st1.chainsByID pid = some v) :
    MarshalInv (marshalRemoteStep desc (pid, st1)).2 ∧
      ∃ v, alookup (marshalRemoteStep desc (pid, st1)).2.chainsByID
          (marshalRemoteStep desc (pid, st1)).1 = some v := by
  obtain ⟨hA, hB, hC, hD⟩ := hinv1
  unfold marshalRemoteStep
  rcases hlook : alookup st1.chainsByID (desc ++ pid) with _ | v
  · simp only [hlook]
    have hparent :
        (pid = "" ∧ (if pid = "" then (-1 : Int)
          else Int.ofNat ((alookup st1.chainsByID pid).getD 0)) = -1) ∨
        (∃ v0, alookup st1.chainsByID pid = some v0 ∧
          (if pid = "" then (-1 : Int)
            else Int.ofNat ((alookup st1.chainsByID pid).getD 0)) = (v0 : Int) ∧
          v0 < st1.layers.length ∧ pid = chainId st1.layers v0) := by
      by_cases hpid : pid = ""
      · exact Or.inl ⟨hpid, by simp [hpid]⟩
      · rcases hid1 with h1 | ⟨v0, hv0⟩
        · exact absurd h1 hpid
        · have hmem := alookup_mem hv0
          have hbv := hB _ hmem
          exact Or.inr ⟨v0, hv0, by simp [hpid, hv0], hbv.1, hbv.2⟩
    set l : CacheLayer :=
      ⟨desc, if pid = "" then -1
             else Int.ofNat ((alookup st1.chainsByID pid).getD 0)⟩ with hl
    have hP' : ParentsLtIdx (st1.layers ++ [l]) := by
      refine ParentsLtIdx_append hA ?_
      rcases hparent with ⟨_, hpeq⟩ | ⟨v0, _, hpeq, hv0lt, _⟩
      · exact Or.inl hpeq
      · exact Or.inr ⟨v0, hv0lt, hpeq⟩
    have hchains2 : aset st1.chainsByID (desc ++ pid) st1.layers.length =
        st1.chainsByID ++ [(desc ++ pid, st1.layers.length)] :=
      aset_of_none hlook _
    have hidformula : desc ++ pid = chainId (st1.layers ++ [l]) st1.layers.length := by
      have hn' : st1.layers.length < (st1.layers ++ [l]).length := by simp
      rw [chainId_step (st1.layers ++ [l]) hP' hn']
      have hget : (st1.layers ++ [l]).get ⟨st1.layers.length, hn'⟩ = l := by
        rw [List.get_eq_getElem, List.getElem_concat_length _ _ _ rfl]
      rw [hget]
      rcases hparent with ⟨hpid, hpeq⟩ | ⟨v0, hv0, hpeq, hv0lt, hform⟩
      · have hpv : l.ParentIndex = -1 := hpeq
        rw [hpv]
        simp only [if_true, reduceIte]
        show desc ++ pid = l.Blob ++ ""
        have hbv : l.Blob = desc := rfl
        rw [hbv, hpid]
      · have hpv : l.ParentIndex = (v0 : Int) := hpeq
        rw [hpv]
        have hnm1 : ¬ ((v0 : Int) = -1) := by omega
        rw [if_neg hnm1]
        have htn : ((v0 : Int)).toNat = v0 := by simp
        rw [htn, chainId_append st1.layers [l] hA hv0lt, ← hform]
    refine ⟨⟨?_, ?_, ?_, ?_⟩, ⟨st1.layers.length, ?_⟩⟩
    · exact hP'
    · intro p hp
      rw [hchains2] at hp
      rcases List.mem_append.mp hp with hp | hp
      · have hbv := hB p hp
        constructor
        · simp only [List.length_append, List.length_cons, List.length_nil]
          omega
        · rw [chainId_append st1.layers [l] hA hbv.1]
          exact hbv.2
      · have hpe : p = (desc ++ pid, st1.layers.length) := by simpa using hp
        subst hpe
        exact ⟨by simp, hidformula⟩
    · rw [hchains2, List.map_append, List.nodup_append]
      refine ⟨hC, by simp, ?_⟩
      intro a ha hmem
      have haeq : a = desc ++ pid := by simpa using hmem
      subst haeq
      rw [alookup_eq_none_iff] at hlook
      exact hlook ha
    · intro i hi
      have hlen : (st1.layers ++ [l]).length = st1.layers.length + 1 := by simp
      by_cases hi' : i < st1.layers.length
      · obtain ⟨id0, hm⟩ := hD i hi'
        exact ⟨id0, by rw [hchains2]; exact List.mem_append_left _ hm⟩
      · have hieq : i = st1.layers.length := by rw [hlen] at hi; omega
        subst hieq
        refine ⟨desc ++ pid, ?_⟩
        rw [hchains2]
        exact List.mem_append_right _ (by simp)
    · exact alookup_aset_self _ _ _
  · simp only [hlook]
    refine ⟨⟨hA, hB, hC, hD⟩, ⟨v, ?_⟩⟩
    simp [hlook]

theorem marshalRemoteN_inv (prov : Option (String → Bool)) (descs : List String) :
    ∀ n st, MarshalInv st →
      MarshalInv (marshalRemoteN prov descs n st).2 ∧
      ((marshalRemoteN prov descs n st).1 = "" ∨
        ∃ v, alookup (marshalRemoteN prov descs n st).2.chainsByID
            (marshalRemoteN prov descs n st).1 = some v) := by
  intro n
  induction n with
  | zero => intro st h; exact ⟨h, Or.inl rfl⟩
  | succ n ih =>
    intro st hinv
    have hunf : marshalRemoteN prov descs (n+1) st =
        marshalRemoteStep (descs.getD n "")
          (if n = 0 then ("", st) else marshalRemoteN prov descs n st) := rfl
    rw [hunf]
    rcases hpr2 : (if n = 0 then ("", st) else marshalRemoteN prov descs n st)
      with ⟨pid, st1⟩
    have hpr : MarshalInv st1 ∧ (pid = "" ∨ ∃ v, alookup st1.chainsByID pid = some v) := by
      by_cases h0 : n = 0
      · rw [h0] at hpr2
        simp only [if_true] at hpr2
        injection hpr2 with hpid hst
        subst hst
        exact ⟨hinv, Or.inl hpid.symm⟩
      · rw [if_neg h0] at hpr2
        have := ih st hinv
        rw [hpr2] at this
        exact ⟨this.1, this.2⟩
    have hstep := marshalRemoteStep_inv (descs.getD n "") pid st1 hpr.1 hpr.2
    exact ⟨hstep.1, Or.inr hstep.2⟩

theorem emptyMarshalState_inv : MarshalInv emptyMarshalState := by
  refine ⟨?_, ?_, ?_, ?_⟩
  · intro i h; simp [emptyMarshalState] at h
  · intro p hp; simp [emptyMarshalState] at hp
  · simp [emptyMarshalState]
  · intro i hi; simp [emptyMarshalState] at hi

theorem marshalRemote_inv {descs : List String} {prov : Option (String → Bool)}
    {st : MarshalState} (h : MarshalInv st) :
    MarshalInv (marshalRemote descs prov st).2 := by
  unfold marshalRemote
  by_cases hp : (match prov with
                 | some ok => !(descs.all ok)
                 | none => false) = true
  · simp only [hp, if_true]
    exact h
  · simp only [hp, if_false]
    exact (marshalRemoteN_inv prov descs descs.length st h).1

/-! # Preservation of the marshal-state invariant through `marshalItem` -/

theorem marshalSlot_pres {mi : MarshalState → Nat → Option (Except String MarshalState)}
    (hmi : ∀ st i st', MarshalInv st → mi st i = some (.ok st') → MarshalInv st') :
    ∀ (ls : List Link) (st : MarshalState) (ins : List CacheInput) (st' : MarshalState),
      MarshalInv st → marshalSlot mi ls st = some (.ok (ins, st')) → MarshalInv st' := by
  intro ls
  induction ls with
  | nil =>
    intro st ins st' hinv heq
    unfold marshalSlot at heq
    simp only [Option.some.injEq, Except.ok.injEq, Prod.mk.injEq] at heq
    rw [← heq.2]
    exact hinv
  | cons l ls ih =>
    intro st ins st' hinv heq
    unfold marshalSlot at heq
    rcases hmi' : mi st l.src with _ | r
    · simp [hmi'] at heq
    · rcases r with e | st1
      · simp [hmi'] at heq
      · simp only [hmi'] at heq
        have hinv1 := hmi st l.src st1 hinv hmi'
        rcases hlook : alookup st1.recordsByItem l.src with _ | idx
        · simp [hlook] at heq
        · simp only [hlook] at heq
          rcases hms : marshalSlot mi ls st1 with _ | r'
          · simp [hms] at heq
          · rcases r' with e | p
            · simp [hms] at heq
            · obtain ⟨ins1, st2⟩ := p
              simp only [hms, Option.some.injEq, Except.ok.injEq, Prod.mk.injEq] at heq
              rw [← heq.2]
              exact ih st1 ins1 st2 hinv1 hms

theorem marshalSlots_pres {mi : MarshalState → Nat → Option (Except String MarshalState)}
    (hmi : ∀ st i st', MarshalInv st → mi st i = some (.ok st') → MarshalInv st') :
    ∀ (slots : List (List Link)) (st : MarshalState) (inss : List (List CacheInput))
      (st' : MarshalState),
      MarshalInv st → marshalSlots mi slots st = some (.ok (inss, st')) → MarshalInv st' := by
  intro slots
  induction slots with
  | nil =>
    intro st inss st' hinv heq
    unfold marshalSlots at heq
    simp only [Option.some.injEq, Except.ok.injEq, Prod.mk.injEq] at heq
    rw [← heq.2]
    exact hinv
  | cons slot rest ih =>
    intro st inss st' hinv heq
    unfold marshalSlots at heq
    rcases h1 : marshalSlot mi slot st with _ | r
    · simp [h1] at heq
    · rcases r with e | p
      · simp [h1] at heq
      · obtain ⟨ins, st1⟩ := p
        have hinv1 := marshalSlot_pres hmi slot st ins st1 hinv h1
        simp only [h1] at heq
        rcases h2 : marshalSlots mi rest st1 with _ | r'
        · simp [h2] at heq
        · rcases r' with e | q
          · simp [h2] at heq
          · obtain ⟨inss1, st2⟩ := q
            simp only [h2, Option.some.injEq, Except.ok.injEq, Prod.mk.injEq] at heq
            rw [← heq.2]
            exact ih st1 inss1 st2 hinv1 h2

theorem marshalItemF_pres (A : List ItemA) (prov : Option (String → Bool)) :
    ∀ fuel st i st', MarshalInv st →
      marshalItemF A prov fuel st i = some (.ok st') → MarshalInv st' := by
  intro fuel
  induction fuel with
  | zero =>
    intro st i st' _ heq
    exact Option.noConfusion heq
  | succ f ih =>
    intro st i st' hinv heq
    unfold marshalItemF at heq
    rcases hrb : alookup st.recordsByItem i with _ | c
    · simp only [hrb] at heq
      rcases hgi : A.get? i with _ | it
      · simp only [hgi] at heq
        exact Except.noConfusion (Option.some.inj heq)
      · simp only [hgi] at heq
        rcases hms : marshalSlots (marshalItemF A prov f) it.links st with _ | r
        · simp [hms] at heq
        · rcases r with e | p
          · simp [hms] at heq
          · obtain ⟨inputs, st1⟩ := p
            have hinv1 : MarshalInv st1 :=
              marshalSlots_pres (fun st0 i0 st0' h0 he => ih st0 i0 st0' h0 he)
                it.links st inputs st1 hinv hms
            simp only [hms] at heq
            rcases hres : it.result with _ | descs
            · simp only [hres, Option.some.injEq, Except.ok.injEq] at heq
              rw [← heq]
              exact hinv1
            · simp only [hres] at heq
              rcases hmr : marshalRemote descs prov st1 with ⟨id, st2⟩
              have hinv2 : MarshalInv st2 := by
                have h2 := @marshalRemote_inv descs prov st1 hinv1
                rw [hmr] at h2
                exact h2
              simp only [hmr] at heq
              by_cases hid : id = ""
              · rw [if_pos hid] at heq
                simp only [Option.some.injEq, Except.ok.injEq] at heq
                rw [← heq]
                exact hinv2
              · rw [if_neg hid] at heq
                rcases hch : alookup st2.chainsByID id with _ | idx
                · simp [hch] at heq
                · simp only [hch, Option.some.injEq, Except.ok.injEq] at heq
                  rw [← heq]
                  exact hinv2
    · simp only [hrb, Option.some.injEq, Except.ok.injEq] at heq
      rw [← heq]
      exact hinv

theorem marshalFold_inv (A : List ItemA) (prov : Option (String → Bool)) (fuel : Nat) :
    ∀ (ts : List Nat) (acc : Option (Except String MarshalState)),
      (∀ st0, acc = some (.ok st0) → MarshalInv st0) →
      ∀ st', ts.foldl (fun acc i =>
          match acc with
          | some (.ok st) => marshalItemF A prov fuel st i
          | other => other) acc = some (.ok st') → MarshalInv st' := by
  intro ts
  induction ts with
  | nil =>
    intro acc hacc st' heq
    exact hacc st' heq
  | cons t ts ih =>
    intro acc hacc st' heq
    rw [List.foldl_cons] at heq
    refine ih _ ?_ st' heq
    intro st0 hstep
    rcases acc with _ | r
    · exact Option.noConfusion hstep
    · rcases r with e | st1
      · simp at hstep
      · have hinv1 := hacc st1 rfl
        exact marshalItemF_pres A prov fuel st1 t st0 hinv1 hstep

theorem marshalConfig_inv {A : List ItemA} {prov : Option (String → Bool)}
    {targets : List Nat} {fuel : Nat} {cc : CacheConfig}
    (h : marshalConfig A prov targets fuel = some (.ok cc)) :
    ParentsLtIdx cc.Layers := by
  unfold marshalConfig at h
  rcases hf : targets.foldl (fun (acc : Option (Except String MarshalState)) (i : Nat) =>
      match acc with
      | some (Except.ok st) => marshalItemF A prov fuel st i
      | other => other) (some (Except.ok emptyMarshalState)) with _ | r
  · simp [hf] at h
  · rcases r with e | st
    · simp [hf] at h
    · simp only [hf, Option.some.injEq, Except.ok.injEq] at h
      have hinv : MarshalInv st :=
        marshalFold_inv A prov fuel targets (some (.ok emptyMarshalState))
          (fun st0 h0 => by
            have he : emptyMarshalState = st0 := by
              simpa using h0
            rw [← he]
            exact emptyMarshalState_inv) st hf
      rw [← h]
      exact hinv.1

/-! # Acyclicity of the sorted layer array (claim C1) -/

theorem sortConfig_parentAcyclic (cc : CacheConfig) (hP : ParentsLtIdx cc.Layers) :
    ParentAcyclic (sortConfig cc) := by
  set SL := sortLe (fun a b => !(layerLtB b.2 a.2)) cc.Layers.enum with hSL
  have hlenSL : SL.length = cc.Layers.length := sortedEnum_length _ _
  have hlen : (sortConfig cc).Layers.length = cc.Layers.length := by
    rw [sortConfig_Layers_def, List.length_map, ← hSL, hlenSL]
  refine ⟨fun x => if h : x < SL.length then (SL.get ⟨x, h⟩).1 else 0, ?_⟩
  intro i hi
  have hiSL : i < SL.length := by rw [hlenSL, ← hlen]; exact hi
  have hget : (sortConfig cc).Layers.get ⟨i, hi⟩ =
      { (SL.get ⟨i, hiSL⟩).2 with
        ParentIndex :=
          if (SL.get ⟨i, hiSL⟩).2.ParentIndex == -1 then (-1 : Int)
          else Int.ofNat (SL.findIdx
            (fun q => q.1 == (SL.get ⟨i, hiSL⟩).2.ParentIndex.toNat)) } := by
    simp only [sortConfig_Layers_def, ← hSL, List.get_eq_getElem, List.getElem_map]
  obtain ⟨hp1, hp2⟩ := mem_sortedEnum (p := SL.get ⟨i, hiSL⟩)
    (List.get_mem SL i hiSL)
  by_cases hpar : (SL.get ⟨i, hiSL⟩).2.ParentIndex = -1
  · left
    have hbe : ((SL.get ⟨i, hiSL⟩).2.ParentIndex == -1) = true := beq_iff_eq.mpr hpar
    rw [hget, if_pos hbe]
  · right
    have hPi := hP (SL.get ⟨i, hiSL⟩).1 hp1
    rw [hp2] at hPi
    rcases hPi with h1 | ⟨j, hj, hjeq⟩
    · exact absurd h1 hpar
    · have htn : (SL.get ⟨i, hiSL⟩).2.ParentIndex.toNat = j := by rw [hjeq]; rfl
      have hjlt : j < cc.Layers.length := lt_trans hj hp1
      have hfd : SL.findIdx (fun q => q.1 == j) < SL.length :=
        sortedEnum_findIdx_lt (fun a b => !(layerLtB b.2 a.2)) hjlt
      have hfst : (SL.get ⟨SL.findIdx (fun q => q.1 == j), hfd⟩).1 = j :=
        sortedEnum_findIdx_fst (fun a b => !(layerLtB b.2 a.2)) hjlt
      have hbe : ((SL.get ⟨i, hiSL⟩).2.ParentIndex == -1) = false := by
        rw [beq_eq_false_iff_ne]
        exact hpar
      refine ⟨SL.findIdx (fun q => q.1 == j), ?_, ?_, ?_, ?_⟩
      · rw [hlen, ← hlenSL]
        exact hfd
      · rw [hget, if_neg (by rw [hbe]; exact Bool.false_ne_true), htn]
        rfl
      · intro hcon
        have hfin : (⟨SL.findIdx (fun q => q.1 == j), hfd⟩ : Fin SL.length) = ⟨i, hiSL⟩ :=
          Fin.ext hcon
        rw [hfin] at hfst
        omega
      · simp only [dif_pos hfd, dif_pos hiSL, hfst]
        exact hj

/-- C1, counterexample: marshalling the single item `itemZA` (whose result
remote has the two-layer chain `z` then `a`) yields the config `ccZA`, and
after `sortConfig` the layer array has `Layers[0].ParentIndex = 1`: a
forward reference, because `sortConfig` sorts layers by blob digest and
rewrites the parent indices through the permutation without
re-establishing `ParentIndex < i`. -/
theorem c1_counterexample :
    marshalConfig itemZA none [0] 5 = some (Except.ok ccZA) ∧
    (sortConfig ccZA).Layers.map CacheLayer.ParentIndex = [1, -1] ∧
    ¬ NoForwardRefs (sortConfig ccZA) := by
  refine ⟨by decide, by decide, fun h => ?_⟩
  have h0 := h 0 (by decide)
  revert h0
  decide

/-- C1, amended: for every config produced by marshalling, after
`sortConfig` every layer's `ParentIndex` is `-1` or a valid index of a
*different* entry and the parent relation is acyclic (it strictly
decreases a rank function) — but it may point to a *higher* index, so the
literal `ParentIndex < i ∨ ParentIndex = -1` claim fails. -/
theorem c1_parentAcyclic (A : List ItemA) (prov : Option (String → Bool))
    (targets : List Nat) (fuel : Nat) (cc : CacheConfig)
    (h : marshalConfig A prov targets fuel = some (Except.ok cc)) :
    ParentAcyclic (sortConfig cc) :=
  sortConfig_parentAcyclic cc (marshalConfig_inv h)

/-- Witness for the amended C1 theorem at the one-item arena `itemZA`. -/
theorem c1_parentAcyclic_witness : ParentAcyclic (sortConfig ccZA) :=
  c1_parentAcyclic itemZA none [0] 5 ccZA (by decide)

/-! # Claim C9 (layer deduplication) -/

theorem nodup_keys_eq {α β : Type} [DecidableEq α] {l : List (α × β)}
    (hnd : (l.map Prod.fst).Nodup) {k : α} {v1 v2 : β}
    (h1 : (k, v1) ∈ l) (h2 : (k, v2) ∈ l) : v1 = v2 := by
  induction l with
  | nil => cases h1
  | cons p rest ih =>
    obtain ⟨pk, pv⟩ := p
    rw [List.map_cons, List.nodup_cons] at hnd
    rcases List.mem_cons.mp h1 with h1' | h1' <;> rcases List.mem_cons.mp h2 with h2' | h2'
    · injection h1' with hk1 hv1
      injection h2' with hk2 hv2
      rw [hv1, hv2]
    · injection h1' with hk1 hv1
      exfalso
      apply hnd.1
      rw [← hk1]
      exact List.mem_map.mpr ⟨(k, v2), h2', rfl⟩
    · injection h2' with hk2 hv2
      exfalso
      apply hnd.1
      rw [← hk2]
      exact List.mem_map.mpr ⟨(k, v1), h1', rfl⟩
    · exact ih hnd.2 h1' h2'

theorem marshalInv_chainId_inj {st : MarshalState} (h : MarshalInv st) :
    ∀ i j, i < st.layers.length → j < st.layers.length →
      chainId st.layers i = chainId st.layers j → i = j := by
  obtain ⟨_, hB, hC, hD⟩ := h
  intro i j hi hj hij
  obtain ⟨idi, hmi⟩ := hD i hi
  obtain ⟨idj, hmj⟩ := hD j hj
  have hfi : idi = chainId st.layers i := (hB _ hmi).2
  have hfj : idj = chainId st.layers j := (hB _ hmj).2
  have hideq : idi = idj := by rw [hfi, hfj, hij]
  rw [hideq] at hmi
  exact nodup_keys_eq hC hmi hmj

theorem marshalRemotes_inv (prov : Option (String → Bool)) (rs : List (List String)) :
    MarshalInv (marshalRemotes prov rs) := by
  unfold marshalRemotes
  have hgen : ∀ (l : List (List String)) (st : MarshalState), MarshalInv st →
      MarshalInv (l.foldl (fun st descs => (marshalRemote descs prov st).2) st) := by
    intro l
    induction l with
    | nil => intro st h; exact h
    | cons d ds ih =>
      intro st h
      rw [List.foldl_cons]
      exact ih _ (marshalRemote_inv h)
  exact hgen rs emptyMarshalState emptyMarshalState_inv

/-- C9, counterexample: marshalling the two remotes with descriptor
chains `[a, b]` and `[c, b]` produces the layer blobs `a, b, c, b` — the
blob digest `b` appears twice, once per distinct parent chain — so the
Layers array is *not* deduplicated by blob digest. -/
theorem c9_counterexample :
    (marshalRemotes none [["a", "b"], ["c", "b"]]).layers.map CacheLayer.Blob
      = ["a", "b", "c", "b"] ∧
    ¬ ((marshalRemotes none [["a", "b"], ["c", "b"]]).layers.map CacheLayer.Blob).Nodup :=
  ⟨by decide, by decide⟩

/-- C9, amended: `marshalRemote` deduplicates layers by *chain id* — the
blob digest concatenated with the full parent chain's id — not by blob
digest alone: across any sequence of marshalled remotes the chain ids of
the output layers are pairwise distinct, while the same blob may recur
under different parent chains. -/
theorem c9_dedup_amended (prov : Option (String → Bool)) (rs : List (List String)) :
    ((List.range (marshalRemotes prov rs).layers.length).map
      (chainId (marshalRemotes prov rs).layers)).Nodup := by
  have hinv := marshalRemotes_inv prov rs
  refine List.Nodup.map_on ?_ (List.nodup_range _)
  intro x hx y hy hxy
  exact marshalInv_chainId_inj hinv x y (List.mem_range.mp hx) (List.mem_range.mp hy) hxy

/-! # Claim C3: idempotence of the ordering pass -/

theorem int_ofNat_eq_cast (n : Nat) : Int.ofNat n = (n : Int) := rfl

theorem pairwise_enum_of_pairwise {α : Type} {R : α → α → Prop} {l : List α}
    (h : l.Pairwise R) : l.enum.Pairwise (fun p q => R p.2 q.2) := by
  have h2 : (l.enum.map Prod.snd).Pairwise R := by
    rw [List.enum_map_snd]
    exact h
  exact List.pairwise_map.mp h2

theorem enumFrom_findIdx {α : Type} (l : List α) : ∀ n old, old < l.length →
    (List.enumFrom n l).findIdx (fun q => q.1 == n + old) = old := by
  induction l with
  | nil =>
    intro n old h
    simp at h
  | cons a l ih =>
    intro n old h
    cases old with
    | zero =>
      simp [List.enumFrom_cons, List.findIdx_cons]
    | succ k =>
      rw [List.enumFrom_cons, List.findIdx_cons]
      have hne : ((n, a).1 == n + (k + 1)) = false := by
        simp only [beq_eq_false_iff_ne, ne_eq]
        omega
      simp only [hne, cond_false]
      have harg : n + (k + 1) = (n + 1) + k := by omega
      rw [harg, ih (n + 1) k (by simpa using h)]

theorem enum_findIdx_self {α : Type} (l : List α) {old : Nat} (h : old < l.length) :
    l.enum.findIdx (fun q => q.1 == old) = old := by
  have h0 := enumFrom_findIdx l 0 old h
  simpa using h0

theorem sortConfig_layers_length (cc : CacheConfig) :
    (sortConfig cc).Layers.length = cc.Layers.length := by
  rw [sortConfig_Layers_def, List.length_map, sortedEnum_length]

theorem sortConfig_records_length (cc : CacheConfig) :
    (sortConfig cc).Records.length = cc.Records.length := by
  rw [sortConfig_Records_def, List.length_map, sortedEnum_length]

theorem sortConfig_layers_blob_perm (cc : CacheConfig) :
    List.Perm ((sortConfig cc).Layers.map CacheLayer.Blob) (cc.Layers.map CacheLayer.Blob) := by
  rw [sortConfig_Layers_def, List.map_map]
  have h1 : List.Perm ((sortLe (fun a b => !(layerLtB b.2 a.2)) cc.Layers.enum).map
      (fun p : Nat × CacheLayer => p.2.Blob)) (cc.Layers.enum.map
      (fun p : Nat × CacheLayer => p.2.Blob)) :=
    (sortLe_perm _ _).map _
  have h2 : cc.Layers.enum.map (fun p : Nat × CacheLayer => p.2.Blob) =
      cc.Layers.map CacheLayer.Blob := by
    have h3 : cc.Layers.enum.map (fun p : Nat × CacheLayer => p.2.Blob) =
        (cc.Layers.enum.map Prod.snd).map CacheLayer.Blob := by
      rw [List.map_map]
      rfl
    rw [h3, List.enum_map_snd]
  rw [← h2]
  exact h1

theorem sortConfig_records_digest_perm (cc : CacheConfig) :
    List.Perm ((sortConfig cc).Records.map CacheRecord.Digest)
      (cc.Records.map CacheRecord.Digest) := by
  rw [sortConfig_Records_def, List.map_map]
  have h1 : List.Perm ((sortLe (fun a b => !(recordLt cc.Records b.2 a.2)) cc.Records.enum).map
      (fun p : Nat × CacheRecord => p.2.Digest)) (cc.Records.enum.map
      (fun p : Nat × CacheRecord => p.2.Digest)) :=
    (sortLe_perm _ _).map _
  have h2 : cc.Records.enum.map (fun p : Nat × CacheRecord => p.2.Digest) =
      cc.Records.map CacheRecord.Digest := by
    have h3 : cc.Records.enum.map (fun p : Nat × CacheRecord => p.2.Digest) =
        (cc.Records.enum.map Prod.snd).map CacheRecord.Digest := by
      rw [List.map_map]
      rfl
    rw [h3, List.enum_map_snd]
  rw [← h2]
  exact h1

theorem layerLtB_false_of_blob_lt {a b : CacheLayer} (h : a.Blob < b.Blob) :
    layerLtB b a = false := by
  unfold layerLtB
  have h1 : strLt b.Blob a.Blob = false := by
    rw [strLt_eq_decide, decide_eq_false_iff_not]
    exact not_lt_of_lt h
  have h2 : (b.Blob == a.Blob) = false := by
    rw [beq_eq_false_iff_ne]
    exact (ne_of_lt h).symm
  rw [h1, h2]
  rfl

theorem recordLt_false_of_digest_lt {rs : List CacheRecord} {a b : CacheRecord}
    (h : a.Digest < b.Digest) : recordLt rs b a = false := by
  unfold recordLt
  have hne : b.Digest ≠ a.Digest := (ne_of_lt h).symm
  rw [if_pos hne, strLt_eq_decide, decide_eq_false_iff_not]
  exact not_lt_of_lt h

theorem sortConfig_layers_parents_valid (cc : CacheConfig) (hv : ValidCC cc) :
    ∀ l ∈ (sortConfig cc).Layers, l.ParentIndex = -1 ∨
      ∃ j, j < (sortConfig cc).Layers.length ∧ l.ParentIndex = (j : Int) := by
  intro l hl
  rw [sortConfig_Layers_def] at hl
  rw [List.mem_map] at hl
  obtain ⟨p, hp, rfl⟩ := hl
  obtain ⟨hp1, hp2⟩ := mem_sortedEnum hp
  have hmem : p.2 ∈ cc.Layers := by
    rw [← hp2]
    exact List.get_mem cc.Layers p.1 hp1
  rcases hv.1 p.2 hmem with hpar | ⟨j, hj, hjeq⟩
  · left
    have hbe : (p.2.ParentIndex == -1) = true := beq_iff_eq.mpr hpar
    show (if (p.2.ParentIndex == -1) = true then (-1 : Int) else _) = -1
    rw [if_pos hbe]
  · right
    have hne : ¬ ((p.2.ParentIndex == -1) = true) := by
      rw [beq_iff_eq, hjeq]
      omega
    have htn : p.2.ParentIndex.toNat = j := by
      rw [hjeq]
      rfl
    refine ⟨(sortLe (fun a b => !(layerLtB b.2 a.2)) cc.Layers.enum).findIdx
      (fun q => q.1 == p.2.ParentIndex.toNat), ?_, ?_⟩
    · rw [sortConfig_layers_length cc, htn]
      have hfd := sortedEnum_findIdx_lt (l := cc.Layers)
        (fun a b => !(layerLtB b.2 a.2)) hj
      rw [sortedEnum_length] at hfd
      exact hfd
    · show (if (p.2.ParentIndex == -1) = true then (-1 : Int) else Int.ofNat _) = _
      rw [if_neg hne, int_ofNat_eq_cast]

theorem sortConfig_records_idx_valid (cc : CacheConfig) (hv : ValidCC cc) :
    ∀ r ∈ (sortConfig cc).Records,
      (∀ slot ∈ r.Inputs, ∀ inp ∈ slot, inp.LinkIndex < (sortConfig cc).Records.length) ∧
      ∀ res ∈ r.Results, res.LayerIndex < (sortConfig cc).Layers.length := by
  intro r hr
  rw [sortConfig_Records_def] at hr
  rw [List.mem_map] at hr
  obtain ⟨p, hp, rfl⟩ := hr
  obtain ⟨hp1, hp2⟩ := mem_sortedEnum hp
  have hmem : p.2 ∈ cc.Records := by
    rw [← hp2]
    exact List.get_mem cc.Records p.1 hp1
  have hvr := hv.2 p.2 hmem
  constructor
  · intro slot hslot inp hinp
    simp only [List.mem_map] at hslot
    obtain ⟨slot0, hslot0, rfl⟩ := hslot
    have hinp' : inp ∈ slot0.map (fun inp =>
        { inp with
          LinkIndex := (sortLe (fun a b => !(recordLt cc.Records b.2 a.2))
              cc.Records.enum).findIdx (fun q => q.1 == inp.LinkIndex) }) :=
      (sortLe_perm _ _).mem_iff.mp hinp
    rw [List.mem_map] at hinp'
    obtain ⟨inp0, hinp0, rfl⟩ := hinp'
    have hlt : inp0.LinkIndex < cc.Records.length := hvr.1 slot0 hslot0 inp0 hinp0
    have hfd := sortedEnum_findIdx_lt (l := cc.Records)
      (fun a b => !(recordLt cc.Records b.2 a.2)) hlt
    rw [sortedEnum_length] at hfd
    rw [sortConfig_records_length cc]
    exact hfd
  · intro res hres
    simp only [List.mem_map] at hres
    obtain ⟨res0, hres0, rfl⟩ := hres
    have hlt : res0.LayerIndex < cc.Layers.length := hvr.2 res0 hres0
    have hfd := sortedEnum_findIdx_lt (l := cc.Layers)
      (fun a b => !(layerLtB b.2 a.2)) hlt
    rw [sortedEnum_length] at hfd
    rw [sortConfig_layers_length cc]
    exact hfd

theorem mem_of_mem_enum {α : Type} {l : List α} {p : Nat × α} (hp : p ∈ l.enum) :
    p.2 ∈ l := by
  have h := List.mem_map_of_mem Prod.snd hp
  rw [List.enum_map_snd] at h
  exact h

theorem sortConfig_id_of_sorted (cc1 : CacheConfig)
    (hL : cc1.Layers.Pairwise (fun a b => a.Blob < b.Blob))
    (hLv : ∀ l ∈ cc1.Layers, l.ParentIndex = -1 ∨
      ∃ j, j < cc1.Layers.length ∧ l.ParentIndex = (j : Int))
    (hR : cc1.Records.Pairwise (fun a b => a.Digest < b.Digest))
    (hRv : ∀ r ∈ cc1.Records, (∀ slot ∈ r.Inputs, ∀ inp ∈ slot,
        inp.LinkIndex < cc1.Records.length) ∧
      ∀ res ∈ r.Results, res.LayerIndex < cc1.Layers.length)
    (hS : ∀ r ∈ cc1.Records, ∀ slot ∈ r.Inputs,
        slot.Pairwise (fun x y => x.LinkIndex ≤ y.LinkIndex)) :
    sortConfig cc1 = cc1 := by
  have hLe : cc1.Layers.enum.Pairwise
      (fun p q => ((!(layerLtB q.2 p.2)) = true)) :=
    (pairwise_enum_of_pairwise hL).imp
      (fun h => by rw [layerLtB_false_of_blob_lt h]; rfl)
  have hRe : cc1.Records.enum.Pairwise
      (fun p q => ((!(recordLt cc1.Records q.2 p.2)) = true)) :=
    (pairwise_enum_of_pairwise hR).imp
      (fun h => by rw [recordLt_false_of_digest_lt h]; rfl)
  have hsortL : sortLe (fun a b => !(layerLtB b.2 a.2)) cc1.Layers.enum =
      cc1.Layers.enum := sortLe_of_pairwise hLe
  have hsortR : sortLe (fun a b => !(recordLt cc1.Records b.2 a.2)) cc1.Records.enum =
      cc1.Records.enum := sortLe_of_pairwise hRe
  have hLayers : (sortConfig cc1).Layers = cc1.Layers := by
    rw [sortConfig_Layers_def, hsortL]
    have hcongr : ∀ p ∈ cc1.Layers.enum,
        ({ p.2 with
           ParentIndex :=
             if p.2.ParentIndex == -1 then (-1 : Int)
             else Int.ofNat (cc1.Layers.enum.findIdx
               (fun q => q.1 == p.2.ParentIndex.toNat)) } : CacheLayer) = p.2 := by
      intro p hp
      rcases hLv p.2 (mem_of_mem_enum hp) with hpar | ⟨j, hj, hjeq⟩
      · have hbe : (p.2.ParentIndex == -1) = true := beq_iff_eq.mpr hpar
        rw [if_pos hbe, ← hpar]
      · have hne : ¬ ((p.2.ParentIndex == -1) = true) := by
          rw [beq_iff_eq, hjeq]
          omega
        have htn : p.2.ParentIndex.toNat = j := by
          rw [hjeq]
          rfl
        have hfi : cc1.Layers.enum.findIdx (fun q => q.1 == j) = j :=
          enum_findIdx_self cc1.Layers hj
        simp only [if_neg hne, htn, hfi, int_ofNat_eq_cast, ← hjeq]
    rw [List.map_congr_left hcongr, List.enum_map_snd]
  have hRecords : (sortConfig cc1).Records = cc1.Records := by
    rw [sortConfig_Records_def, hsortL, hsortR]
    have hcongr : ∀ p ∈ cc1.Records.enum,
        ({ p.2 with
           Results := p.2.Results.map (fun res =>
             { res with
               LayerIndex := cc1.Layers.enum.findIdx (fun q => q.1 == res.LayerIndex) })
           Inputs := p.2.Inputs.map (fun slot =>
             sortLe (fun a b => decide (a.LinkIndex ≤ b.LinkIndex))
               (slot.map (fun inp =>
                 { inp with
                   LinkIndex := cc1.Records.enum.findIdx
                     (fun q => q.1 == inp.LinkIndex) }))) } : CacheRecord) = p.2 := by
      intro p hp
      have hmem : p.2 ∈ cc1.Records := mem_of_mem_enum hp
      have hRes : p.2.Results.map (fun res =>
          { res with
            LayerIndex := cc1.Layers.enum.findIdx (fun q => q.1 == res.LayerIndex) }) =
          p.2.Results := by
        have hres : ∀ res ∈ p.2.Results,
            ({ res with
               LayerIndex := cc1.Layers.enum.findIdx (fun q => q.1 == res.LayerIndex) } :
              CacheResult) = res := by
          intro res hres0
          have hb : res.LayerIndex < cc1.Layers.length := (hRv p.2 hmem).2 res hres0
          rw [enum_findIdx_self cc1.Layers hb]
        rw [List.map_congr_left hres, List.map_id']
      have hInp : p.2.Inputs.map (fun slot =>
          sortLe (fun a b => decide (a.LinkIndex ≤ b.LinkIndex))
            (slot.map (fun inp =>
              { inp with
                LinkIndex := cc1.Records.enum.findIdx
                  (fun q => q.1 == inp.LinkIndex) }))) = p.2.Inputs := by
        have hslot : ∀ slot ∈ p.2.Inputs,
            sortLe (fun a b => decide (a.LinkIndex ≤ b.LinkIndex))
              (slot.map (fun inp =>
                { inp with
                  LinkIndex := cc1.Records.enum.findIdx
                    (fun q => q.1 == inp.LinkIndex) })) = slot := by
          intro slot hslot0
          have hmap : slot.map (fun inp =>
              { inp with
                LinkIndex := cc1.Records.enum.findIdx
                  (fun q => q.1 == inp.LinkIndex) }) = slot := by
            have hk : ∀ inp ∈ slot,
                ({ inp with
                   LinkIndex := cc1.Records.enum.findIdx
                     (fun q => q.1 == inp.LinkIndex) } : CacheInput) = inp := by
              intro inp hinp
              have hb : inp.LinkIndex < cc1.Records.length :=
                (hRv p.2 hmem).1 slot hslot0 inp hinp
              rw [enum_findIdx_self cc1.Records hb]
            rw [List.map_congr_left hk, List.map_id']
          rw [hmap]
          exact sortLe_of_pairwise
            ((hS p.2 hmem slot hslot0).imp (fun h => decide_eq_true h))
        rw [List.map_congr_left hslot, List.map_id']
      rw [hRes, hInp]
    rw [List.map_congr_left hcongr, List.enum_map_snd]
  calc sortConfig cc1
      = { Layers := (sortConfig cc1).Layers, Records := (sortConfig cc1).Records } := rfl
    _ = { Layers := cc1.Layers, Records := cc1.Records } := by rw [hLayers, hRecords]
    _ = cc1 := rfl

/-- C3, counterexample: `ccC3` satisfies the claim's validity hypotheses
(all parent, link and layer indices resolve), yet applying `sortConfig` a
second time changes the arrays again: the layer tie `b/b` is ordered by
the pre-rewrite parent indices on the first run but by the rewritten ones
on the second, and the two `d` records compare differently after their
link indices are rewritten and their slots re-sorted. -/
theorem c3_counterexample :
    ValidCC ccC3 ∧ sortConfig (sortConfig ccC3) ≠ sortConfig ccC3 := by
  constructor
  · constructor
    · intro l hl
      fin_cases hl
      · exact Or.inl rfl
      · exact Or.inl rfl
      · exact Or.inr ⟨0, by decide, rfl⟩
      · exact Or.inr ⟨1, by decide, rfl⟩
    · intro r hr
      fin_cases hr <;> exact ⟨by decide, by decide⟩
  · decide

/-- C3, amended: `sortConfig` is idempotent on every valid config whose
layer blobs are pairwise distinct and whose record digests are pairwise
distinct (then both comparators are tie-free, so the second run is the
identity); with duplicate sort keys the index rewriting can reorder ties
and idempotence fails. -/
theorem sortConfig_idempotent (cc : CacheConfig) (hv : ValidCC cc)
    (hbl : (cc.Layers.map CacheLayer.Blob).Nodup)
    (hdg : (cc.Records.map CacheRecord.Digest).Nodup) :
    sortConfig (sortConfig cc) = sortConfig cc := by
  apply sortConfig_id_of_sorted
  · have hle := sortConfig_layers_blob_le cc
    have hnd : ((sortConfig cc).Layers.map CacheLayer.Blob).Nodup :=
      (sortConfig_layers_blob_perm cc).nodup_iff.mpr hbl
    have hne : (sortConfig cc).Layers.Pairwise (fun a b => a.Blob ≠ b.Blob) :=
      List.pairwise_map.mp hnd
    exact (hle.and hne).imp (fun h => lt_of_le_of_ne h.1 h.2)
  · exact sortConfig_layers_parents_valid cc hv
  · have hle := sortConfig_records_digest_arity cc
    have hnd : ((sortConfig cc).Records.map CacheRecord.Digest).Nodup :=
      (sortConfig_records_digest_perm cc).nodup_iff.mpr hdg
    have hne : (sortConfig cc).Records.Pairwise (fun a b => a.Digest ≠ b.Digest) :=
      List.pairwise_map.mp hnd
    refine (hle.and hne).imp (fun h => ?_)
    rcases h.1 with h1 | h1
    · exact h1
    · exact absurd h1.1 h.2
  · exact sortConfig_records_idx_valid cc hv
  · exact sortConfig_slots_sorted cc

/-- Witness for the amended C3 theorem: the marshalled config `ccZA` has
distinct blobs and distinct digests, and `sortConfig` is idempotent on
it. -/
theorem sortConfig_idempotent_witness :
    sortConfig (sortConfig ccZA) = sortConfig ccZA :=
  sortConfig_idempotent ccZA
    (by
      constructor
      · intro l hl
        fin_cases hl
        · exact Or.inl rfl
        · exact Or.inr ⟨0, by decide, rfl⟩
      · intro r hr
        fin_cases hr
        exact ⟨by decide, by decide⟩)
    (by decide) (by decide)

/-! # Claim C6: canonical-identifier assignment in `normalizeItem` -/

theorem normalizeItemF_added {fuel : Nat} {s : NState} {j c : Nat}
    (h : alookup s.added j = some c) :
    normalizeItemF (fuel+1) s j = some (.ok (some c, s)) := by
  unfold normalizeItemF
  rw [h]

theorem itemAddLink_fields (s : NState) (c k : Nat) (l : Link) :
    (itemAddLink s c k l).added = s.added ∧ (itemAddLink s c k l).byKey = s.byKey ∧
    (itemAddLink s c k l).next = s.next := by
  unfold itemAddLink
  rcases hx : s.items.get? c with _ | it <;> simp only [hx] <;> exact ⟨trivial, trivial, trivial⟩

theorem linksInsert_fields (s : NState) (k : Nat) (nl : NLink) (id : String) :
    (linksInsert s k nl id).added = s.added ∧ (linksInsert s k nl id).byKey = s.byKey ∧
    (linksInsert s k nl id).next = s.next :=
  ⟨rfl, rfl, rfl⟩

theorem alookup_aset_isSome {α β : Type} [DecidableEq α] {m : List (α × β)} {k : α}
    (k' : α) (v : β) (h : (alookup m k).isSome) :
    (alookup (aset m k' v) k).isSome := by
  induction m with
  | nil => simp [alookup] at h
  | cons p rest ih =>
    obtain ⟨pk, pv⟩ := p
    by_cases hpk : pk = k'
    · unfold aset
      rw [if_pos hpk]
      by_cases hkk : k' = k
      · unfold alookup
        rw [if_pos hkk]
        rfl
      · unfold alookup
        rw [if_neg hkk]
        unfold alookup at h
        rw [hpk] at h
        rw [if_neg hkk] at h
        exact h
    · unfold aset
      rw [if_neg hpk]
      by_cases hpkk : pk = k
      · unfold alookup
        rw [if_pos hpkk]
        rfl
      · unfold alookup
        rw [if_neg hpkk]
        unfold alookup at h
        rw [if_neg hpkk] at h
        exact ih h

theorem strLt_trans {a b c : String} (h1 : strLt a b = true) (h2 : strLt b c = true) :
    strLt a c = true := by
  rw [strLt_iff] at h1 h2 ⊢
  exact lt_trans h1 h2

theorem strLt_false_iff {a b : String} : strLt a b = false ↔ ¬ a < b := by
  rw [← Bool.not_eq_true, strLt_iff]

theorem pickMin_fold_spec :
    ∀ (l : List String) (acc : String), acc ≠ "" → "" ∉ l →
      (l.foldl (fun id m => if id = "" ∨ strLt m id then m else id) acc ∈ acc :: l) ∧
      ∀ m ∈ acc :: l,
        strLt m (l.foldl (fun id m => if id = "" ∨ strLt m id then m else id) acc) = false := by
  intro l
  induction l with
  | nil =>
    intro acc hacc _
    refine ⟨List.mem_singleton.mpr rfl, ?_⟩
    intro m hm
    rw [List.mem_singleton.mp hm]
    exact strLt_irrefl acc
  | cons b l ih =>
    intro acc hacc hno
    have hbne : b ≠ "" := fun hb => hno (by rw [← hb]; exact List.mem_cons_self b l)
    have hnol : "" ∉ l := fun h => hno (List.mem_cons_of_mem b h)
    simp only [List.foldl_cons]
    by_cases hcond : acc = "" ∨ strLt b acc = true
    · rw [if_pos hcond]
      have hspec := ih b hbne hnol
      have h1 : strLt b acc = true := by
        rcases hcond with h1 | h1
        · exact absurd h1 hacc
        · exact h1
      refine ⟨List.mem_cons_of_mem acc hspec.1, ?_⟩
      intro m hm
      rcases List.mem_cons.mp hm with rfl | hm'
      · cases hsa : strLt m (l.foldl (fun id m => if id = "" ∨ strLt m id then m else id) b) with
        | false => rfl
        | true =>
          exfalso
          have hb := hspec.2 b (List.mem_cons_self b l)
          have hbt := strLt_trans h1 hsa
          rw [hbt] at hb
          exact Bool.noConfusion hb
      · exact hspec.2 m hm'
    · rw [if_neg hcond]
      have hba : strLt b acc = false := by
        cases h : strLt b acc with
        | false => rfl
        | true => exact absurd (Or.inr h) hcond
      have hspec := ih acc hacc hnol
      refine ⟨?_, ?_⟩
      · rcases List.mem_cons.mp hspec.1 with h1 | h1
        · rw [h1]
          exact List.mem_cons_self acc (b :: l)
        · exact List.mem_cons_of_mem acc (List.mem_cons_of_mem b h1)
      · intro m hm
        rcases List.mem_cons.mp hm with rfl | hm'
        · exact hspec.2 m (List.mem_cons_self m l)
        · rcases List.mem_cons.mp hm' with rfl | hm''
          · cases hsb : strLt m (l.foldl (fun id m => if id = "" ∨ strLt m id then m else id) acc) with
            | false => rfl
            | true =>
              exfalso
              have hacc_res := hspec.2 acc (List.mem_cons_self acc l)
              have hle : acc ≤ m := le_of_not_lt (strLt_false_iff.mp hba)
              have hlt : acc < l.foldl (fun id m => if id = "" ∨ strLt m id then m else id) acc :=
                lt_of_le_of_lt hle (strLt_iff.mp hsb)
              have hacc_res' := strLt_iff.mpr hlt
              rw [hacc_res'] at hacc_res
              exact Bool.noConfusion hacc_res
          · exact hspec.2 m (List.mem_cons_of_mem acc hm'')

theorem pickMinId_spec (mset : List String) (hne : mset ≠ []) (hno : "" ∉ mset) :
    pickMinId mset ∈ mset ∧ ∀ m ∈ mset, strLt m (pickMinId mset) = false := by
  cases mset with
  | nil => exact absurd rfl hne
  | cons b l =>
    have hb : b ≠ "" := fun h => hno (by rw [← h]; exact List.mem_cons_self b l)
    have hnol : "" ∉ l := fun h => hno (List.mem_cons_of_mem b h)
    unfold pickMinId
    simp only [List.foldl_cons]
    rw [if_pos (show True ∨ strLt b "" = true from Or.inl trivial)]
    exact pickMin_fold_spec l b hb hnol

theorem matchLinks_pure (fuel : Nat) (dgst : String) (slotIdx : Nat) (isFirst : Bool) :
    ∀ (ls : List Link) (mset : List String) (s : NState),
      (∀ l ∈ ls, (alookup s.added l.src).isSome) →
      matchLinks (normalizeItemF (fuel+1)) dgst slotIdx isFirst ls mset s =
        some (.ok (ls.foldl (fun acc l =>
          if isFirst then
            (linkIds s (alookup s.added l.src) ⟨dgst, slotIdx, l.selector⟩).foldl
              insertNew acc
          else acc.filter
            (fun m => m ∈ linkIds s (alookup s.added l.src) ⟨dgst, slotIdx, l.selector⟩))
          mset, s)) := by
  intro ls
  induction ls with
  | nil =>
    intro mset s _
    rfl
  | cons l ls ih =>
    intro mset s h
    have hl := h l (List.mem_cons_self l ls)
    rcases halook : alookup s.added l.src with _ | c
    · rw [halook] at hl
      simp at hl
    · unfold matchLinks
      simp only [normalizeItemF_added halook, List.foldl_cons, halook]
      exact ih _ s (fun l' hl' => h l' (List.mem_cons_of_mem l hl'))

theorem matchSlots_pure (fuel : Nat) (dgst : String) :
    ∀ (slots : List (List Link)) (slotIdx : Nat) (mset : List String) (s : NState),
      (∀ slot ∈ slots, slot.isEmpty = false) →
      (∀ slot ∈ slots, ∀ l ∈ slot, (alookup s.added l.src).isSome) →
      matchSlots (normalizeItemF (fuel+1)) dgst slots slotIdx mset s =
        some (.ok (matchesPure s dgst slots slotIdx mset, s)) := by
  intro slots
  induction slots with
  | nil =>
    intro slotIdx mset s _ _
    rfl
  | cons slot rest ih =>
    intro slotIdx mset s hne hsrc
    have hfn : (fun (acc : List String) (l : Link) =>
        if (decide (slotIdx = 0)) = true then
          (linkIds s (alookup s.added l.src) ⟨dgst, slotIdx, l.selector⟩).foldl
            insertNew acc
        else acc.filter
          (fun m => m ∈ linkIds s (alookup s.added l.src) ⟨dgst, slotIdx, l.selector⟩)) =
        (fun (acc : List String) (l : Link) =>
          let nl : NLink := ⟨dgst, slotIdx, l.selector⟩
          let ids := linkIds s (alookup s.added l.src) nl
          if slotIdx = 0 then ids.foldl insertNew acc
          else acc.filter (fun m => m ∈ ids)) := by
      funext acc l
      by_cases h0 : slotIdx = 0 <;> simp [h0]
    unfold matchSlots
    rw [if_neg (by rw [hne slot (List.mem_cons_self slot rest)]; exact Bool.false_ne_true)]
    simp only [matchLinks_pure fuel dgst slotIdx _ slot mset s
      (fun l hl => hsrc slot (List.mem_cons_self slot rest) l hl)]
    rw [hfn]
    rw [ih (slotIdx+1) _ s (fun sl hsl => hne sl (List.mem_cons_of_mem slot hsl))
      (fun sl hsl l hl => hsrc sl (List.mem_cons_of_mem slot hsl) l hl)]
    rfl

theorem relinkLinks_ok (fuel : Nat) (dgst id : String) (canIdx slotIdx : Nat) :
    ∀ (ls : List Link) (s : NState),
      (∀ l ∈ ls, (alookup s.added l.src).isSome) →
      ∃ s', relinkLinks (normalizeItemF (fuel+1)) dgst id canIdx slotIdx ls s =
          some (.ok s') ∧
        s'.added = s.added ∧ s'.byKey = s.byKey ∧ s'.next = s.next := by
  intro ls
  induction ls with
  | nil =>
    intro s _
    exact ⟨s, rfl, rfl, rfl, rfl⟩
  | cons l ls ih =>
    intro s h
    have hl := h l (List.mem_cons_self l ls)
    rcases halook : alookup s.added l.src with _ | c
    · rw [halook] at hl
      simp at hl
    · have hf1 := itemAddLink_fields s canIdx slotIdx ⟨c, l.selector⟩
      have hf2 := linksInsert_fields (itemAddLink s canIdx slotIdx ⟨c, l.selector⟩) c
        ⟨dgst, slotIdx, l.selector⟩ id
      set s2 := linksInsert (itemAddLink s canIdx slotIdx ⟨c, l.selector⟩) c
        ⟨dgst, slotIdx, l.selector⟩ id with hs2
      have h2a : s2.added = s.added := by rw [hf2.1, hf1.1]
      have h2b : s2.byKey = s.byKey := by rw [hf2.2.1, hf1.2.1]
      have h2n : s2.next = s.next := by rw [hf2.2.2, hf1.2.2]
      obtain ⟨s', hs', ha, hb, hn⟩ := ih s2
        (fun l' hl' => by rw [h2a]; exact h l' (List.mem_cons_of_mem l hl'))
      refine ⟨s', ?_, by rw [ha, h2a], by rw [hb, h2b], by rw [hn, h2n]⟩
      unfold relinkLinks
      simp only [normalizeItemF_added halook]
      exact hs'

theorem relinkSlots_ok (fuel : Nat) (dgst id : String) (canIdx : Nat) :
    ∀ (slots : List (List Link)) (slotIdx : Nat) (s : NState),
      (∀ slot ∈ slots, ∀ l ∈ slot, (alookup s.added l.src).isSome) →
      ∃ s', relinkSlots (normalizeItemF (fuel+1)) dgst id canIdx slots slotIdx s =
          some (.ok s') ∧
        s'.added = s.added ∧ s'.byKey = s.byKey ∧ s'.next = s.next := by
  intro slots
  induction slots with
  | nil =>
    intro slotIdx s _
    exact ⟨s, rfl, rfl, rfl, rfl⟩
  | cons slot rest ih =>
    intro slotIdx s h
    obtain ⟨s1, hs1, h1a, h1b, h1n⟩ := relinkLinks_ok fuel dgst id canIdx slotIdx slot s
      (fun l hl => h slot (List.mem_cons_self slot rest) l hl)
    obtain ⟨s', hs', ha, hb, hn⟩ := ih (slotIdx+1) s1
      (fun sl hsl l hl => by
        rw [h1a]
        exact h sl (List.mem_cons_of_mem slot hsl) l hl)
    refine ⟨s', ?_, by rw [ha, h1a], by rw [hb, h1b], by rw [hn, h1n]⟩
    unfold relinkSlots
    simp only [hs1]
    exact hs'

/-- C6: confirmed.  When `normalizeItem` reaches an unprocessed item with
at least one input link whose per-slot link sets are non-empty and whose
sources are already normalized: if the computed match set is non-empty
(and, as in every state the algorithm produces, does not contain the
empty digest and its minimum resolves in `byKey`), the item is assigned
the lexicographically smallest matching key as canonical identifier and
the fresh-id counter is untouched; if the match set is empty the item is
assigned the fresh deterministic identifier
`digest(decimal(next+1))` and the counter is incremented exactly once. -/
theorem c6_normalizeItem_id (fuel : Nat) (s : NState) (i : Nat) (it : ItemA)
    (hadd : alookup s.added i = none)
    (hit : s.items.get? i = some it)
    (hlinks : it.links.isEmpty = false)
    (hslots : ∀ slot ∈ it.links, slot.isEmpty = false)
    (hsrc : ∀ slot ∈ it.links, ∀ l ∈ slot, (alookup s.added l.src).isSome) :
    (∀ canIdx, matchesPure s it.dgst it.links 0 [] ≠ [] →
      "" ∉ matchesPure s it.dgst it.links 0 [] →
      alookup s.byKey (pickMinId (matchesPure s it.dgst it.links 0 [])) = some canIdx →
      pickMinId (matchesPure s it.dgst it.links 0 []) ∈
        matchesPure s it.dgst it.links 0 [] ∧
      (∀ m ∈ matchesPure s it.dgst it.links 0 [],
        strLt m (pickMinId (matchesPure s it.dgst it.links 0 [])) = false) ∧
      ∃ s', normalizeItemF (fuel + 1 + 1) s i = some (.ok (some canIdx, s')) ∧
        s'.next = s.next ∧ s'.byKey = s.byKey ∧ s'.added = aset s.added i canIdx) ∧
    (matchesPure s it.dgst it.links 0 [] = [] →
      ∃ s', normalizeItemF (fuel + 1 + 1) s i = some (.ok (some i, s')) ∧
        s'.next = s.next + 1 ∧
        s'.byKey = aset s.byKey (digestFromBytes (Nat.repr (s.next + 1))) i ∧
        s'.added = aset s.added i i) := by
  have hM := matchSlots_pure fuel it.dgst it.links 0 [] s hslots hsrc
  constructor
  · intro canIdx hMne hMno hcan
    obtain ⟨hmem, hmin⟩ := pickMinId_spec _ hMne hMno
    refine ⟨hmem, hmin, ?_⟩
    have hMe : (matchesPure s it.dgst it.links 0 []).isEmpty = false := by
      rcases hML : matchesPure s it.dgst it.links 0 [] with _ | ⟨x, xs⟩
      · exact absurd hML hMne
      · rfl
    obtain ⟨s3, hs3, h3a, h3b, h3n⟩ := relinkSlots_ok fuel it.dgst
      (pickMinId (matchesPure s it.dgst it.links 0 [])) canIdx it.links 0
      { s with added := aset s.added i canIdx }
      (fun slot hsl l hl => alookup_aset_isSome i canIdx (hsrc slot hsl l hl))
    refine ⟨s3, ?_, h3n, h3b, h3a⟩
    unfold normalizeItemF
    simp only [hadd, hit]
    rw [if_neg (by rw [hlinks]; exact Bool.false_ne_true)]
    simp only [hM, hit, Option.getD_some]
    rw [if_neg (by rw [hMe]; exact Bool.false_ne_true)]
    simp only [hcan, hs3]
  · intro hMnil
    have hMe : (matchesPure s it.dgst it.links 0 []).isEmpty = true := by
      rw [hMnil]
      rfl
    obtain ⟨s3, hs3, h3a, h3b, h3n⟩ := relinkSlots_ok fuel it.dgst
      (digestFromBytes (Nat.repr (s.next + 1))) i it.links 0
      { s with
        next := s.next + 1
        byKey := aset s.byKey (digestFromBytes (Nat.repr (s.next + 1))) i
        items := s.items.set i { it with links := List.replicate it.links.length [] }
        added := aset s.added i i }
      (fun slot hsl l hl => alookup_aset_isSome i i (hsrc slot hsl l hl))
    refine ⟨s3, ?_, h3n, h3b, h3a⟩
    unfold normalizeItemF
    simp only [hadd, hit]
    rw [if_neg (by rw [hlinks]; exact Bool.false_ne_true)]
    simp only [hM, hit, Option.getD_some]
    rw [if_pos (by rw [hMe])]
    simp only [hMnil, hs3]

/-- Witness for C6 at `nsC6`: normalizing item `1` (one input link whose
source `0` is already normalized, no matching record) takes the fresh
branch: the counter moves from `0` to `1` and the item is keyed by
`digest("1")`. -/
theorem c6_normalizeItem_id_witness :
    ∃ s', normalizeItemF 2 nsC6 1 = some (.ok (some 1, s')) ∧
      s'.next = nsC6.next + 1 ∧
      s'.byKey = aset nsC6.byKey (digestFromBytes (Nat.repr (nsC6.next + 1))) 1 ∧
      s'.added = aset nsC6.added 1 1 :=
  (c6_normalizeItem_id 0 nsC6 1 ⟨"x", [[⟨0, ""⟩]], none, 0⟩
    (by decide) (by decide) (by decide) (by decide) (by decide)).2 (by decide)

/-! # Claim C8: uniqueness of canonical items -/

/-- C8, counterexample: items `2` and `11` of `arenaC8` are *identical*
(same vertex digest `D`, same single input slot linking to source `0`),
yet after normalizing all items in order they are mapped to *different*
canonical items: item `2` to itself, item `11` to item `10` — an item
with the same digest but a different arity whose slot-0 links subsume
theirs.  The matching loop intersects per-slot key sets only over the
item's own slots and ignores arity, so the later duplicate matches the
arity-2 record and `pickMinId` prefers its key `sha256:10` over
`sha256:2`. -/
theorem c8_counterexample :
    arenaC8.get? 2 = arenaC8.get? 11 ∧
    canonicalAssignment [1, 2, 3, 4, 5, 6, 7, 8, 9, 10, 11] 20 nsC8 2 = some 2 ∧
    canonicalAssignment [1, 2, 3, 4, 5, 6, 7, 8, 9, 10, 11] 20 nsC8 11 = some 10 :=
  ⟨by decide, by decide, by decide⟩

/-- C8, amended: two items with the same vertex digest and the same input
links are merged into one canonical item when no other record with the
same digest shares their slot links: in `arenaC8b` the identical items
`1` and `2` both map to the canonical item `1`. -/
theorem c8_amended_merge :
    arenaC8b.get? 1 = arenaC8b.get? 2 ∧
    canonicalAssignment [1, 2] 20 nsC8b 1 = some 1 ∧
    canonicalAssignment [1, 2] 20 nsC8b 2 = some 1 :=
  ⟨by decide, by decide, by decide⟩

/-! # Claim C7: errors of `normalizeItem` vs reachable empty slots -/

theorem alookup_aset_isSome_inv {α β : Type} [DecidableEq α] {m : List (α × β)} {k : α}
    {v : β} {key : α} (h : (alookup (aset m k v) key).isSome) :
    key = k ∨ (alookup m key).isSome := by
  by_cases hk : key = k
  · exact Or.inl hk
  · rw [alookup_aset_of_ne m v (fun hh => hk hh.symm)] at h
    exact Or.inr h

theorem pickMin_fold_mem :
    ∀ (l : List String) (acc : String),
      l.foldl (fun id m => if id = "" ∨ strLt m id then m else id) acc = acc ∨
      l.foldl (fun id m => if id = "" ∨ strLt m id then m else id) acc ∈ l := by
  intro l
  induction l with
  | nil =>
    intro acc
    exact Or.inl rfl
  | cons b l ih =>
    intro acc
    simp only [List.foldl_cons]
    by_cases hc : acc = "" ∨ strLt b acc = true
    · rw [if_pos hc]
      rcases ih b with h | h
      · exact Or.inr (by rw [h]; exact List.mem_cons_self b l)
      · exact Or.inr (List.mem_cons_of_mem b h)
    · rw [if_neg hc]
      rcases ih acc with h | h
      · exact Or.inl h
      · exact Or.inr (List.mem_cons_of_mem b h)

theorem pickMinId_mem {mset : List String} (h : mset ≠ []) : pickMinId mset ∈ mset := by
  cases mset with
  | nil => exact absurd rfl h
  | cons b l =>
    unfold pickMinId
    simp only [List.foldl_cons]
    rw [if_pos (show True ∨ strLt b "" = true from Or.inl trivial)]
    rcases pickMin_fold_mem l b with h1 | h1
    · rw [h1]
      exact List.mem_cons_self b l
    · exact List.mem_cons_of_mem b h1

theorem emptyReach_iff {A : List ItemA} {i : Nat} {it : ItemA}
    (hit : A.get? i = some it) :
    EmptyReach A i ↔ [] ∈ it.links ∨ ∃ slot ∈ it.links, ∃ l ∈ slot, EmptyReach A l.src := by
  constructor
  · intro h
    cases h with
    | here _ it' hgt hmem =>
      rw [hit] at hgt
      injection hgt with hgt
      rw [← hgt] at hmem
      exact Or.inl hmem
    | step _ it' slot l hgt hslot hl hrec =>
      rw [hit] at hgt
      injection hgt with hgt
      rw [← hgt] at hslot
      exact Or.inr ⟨slot, hslot, l, hl, hrec⟩
  · intro h
    rcases h with h | ⟨slot, hslot, l, hl, hrec⟩
    · exact EmptyReach.here i it hit h
    · exact EmptyReach.step i it slot l hit hslot hl hrec

theorem itemAddLink_more (s : NState) (c k : Nat) (l : Link) :
    (itemAddLink s c k l).links = s.links ∧
    (itemAddLink s c k l).items.length = s.items.length ∧
    ∀ j, j ≠ c → (itemAddLink s c k l).items.get? j = s.items.get? j := by
  unfold itemAddLink
  rcases hx : s.items.get? c with _ | it
  · simp only [hx]
    exact ⟨trivial, trivial, fun j _ => trivial⟩
  · simp only [hx]
    refine ⟨trivial, List.length_set s.items c _, ?_⟩
    intro j hj
    simp only [List.get?_eq_getElem?]
    exact List.getElem?_set_ne (fun hh => hj hh.symm)

theorem linksInsert_inLinks (s : NState) (k : Nat) (nl : NLink) (id : String) :
    ∀ id', InLinks (linksInsert s k nl id) id' → id' = id ∨ InLinks s id' := by
  intro id' hin
  obtain ⟨k', entry, p, hent, hp, hid⟩ := hin
  have hent' : alookup (aset s.links k
      (aset ((alookup s.links k).getD []) nl
        (insertNew ((alookup ((alookup s.links k).getD []) nl).getD []) id))) k' =
      some entry := hent
  by_cases hk : k' = k
  · subst hk
    rw [alookup_aset_self] at hent'
    injection hent' with hent'
    rw [← hent'] at hp
    rcases mem_aset hp with hpm | hpeq
    · rcases hsl : alookup s.links k' with _ | entry0
      · rw [hsl] at hpm
        simp at hpm
      · rw [hsl] at hpm
        simp only [Option.getD_some] at hpm
        exact Or.inr ⟨k', entry0, p, hsl, hpm, hid⟩
    · rw [hpeq] at hid
      simp only [] at hid
      rcases mem_insertNew.mp hid with h1 | h1
      · rcases hm : alookup ((alookup s.links k').getD []) nl with _ | ids0
        · rw [hm] at h1
          simp at h1
        · rw [hm] at h1
          simp only [Option.getD_some] at h1
          rcases hsl : alookup s.links k' with _ | entry0
          · rw [hsl] at hm
            simp only [Option.getD_none] at hm
            exact absurd hm (by unfold alookup; exact Option.noConfusion)
          · rw [hsl] at hm
            simp only [Option.getD_some] at hm
            exact Or.inr ⟨k', entry0, (nl, ids0), hsl, alookup_mem hm, h1⟩
      · exact Or.inl h1
  · rw [alookup_aset_of_ne _ _ (fun hh => hk hh.symm)] at hent'
    exact Or.inr ⟨k', entry, p, hent', hp, hid⟩

theorem relinkLinks_inv (fuel : Nat) (dgst id : String) (canIdx slotIdx : Nat) :
    ∀ (ls : List Link) (s : NState),
      (∀ l ∈ ls, (alookup s.added l.src).isSome) →
      ∃ s', relinkLinks (normalizeItemF (fuel+1)) dgst id canIdx slotIdx ls s =
          some (.ok s') ∧
        s'.added = s.added ∧ s'.byKey = s.byKey ∧ s'.next = s.next ∧
        s'.items.length = s.items.length ∧
        (∀ j, j ≠ canIdx → s'.items.get? j = s.items.get? j) ∧
        (∀ id', InLinks s' id' → id' = id ∨ InLinks s id') := by
  intro ls
  induction ls with
  | nil =>
    intro s _
    exact ⟨s, rfl, rfl, rfl, rfl, rfl, fun j _ => rfl, fun id' h => Or.inr h⟩
  | cons l ls ih =>
    intro s h
    have hl := h l (List.mem_cons_self l ls)
    rcases halook : alookup s.added l.src with _ | c
    · rw [halook] at hl
      simp at hl
    · have hf1 := itemAddLink_fields s canIdx slotIdx ⟨c, l.selector⟩
      have hm1 := itemAddLink_more s canIdx slotIdx ⟨c, l.selector⟩
      set s2 := linksInsert (itemAddLink s canIdx slotIdx ⟨c, l.selector⟩) c
        ⟨dgst, slotIdx, l.selector⟩ id with hs2
      have h2a : s2.added = s.added := by rw [hs2]; exact hf1.1
      have h2b : s2.byKey = s.byKey := by rw [hs2]; exact hf1.2.1
      have h2n : s2.next = s.next := by rw [hs2]; exact hf1.2.2
      have h2len : s2.items.length = s.items.length := by rw [hs2]; exact hm1.2.1
      have h2get : ∀ j, j ≠ canIdx → s2.items.get? j = s.items.get? j := by
        intro j hj
        rw [hs2]
        exact hm1.2.2 j hj
      have h2links : ∀ id', InLinks s2 id' → id' = id ∨ InLinks s id' := by
        intro id' hin
        rcases linksInsert_inLinks _ _ _ _ id' hin with h1 | h1
        · exact Or.inl h1
        · right
          obtain ⟨k', entry, p, hent, hp, hid⟩ := h1
          rw [hm1.1] at hent
          exact ⟨k', entry, p, hent, hp, hid⟩
      obtain ⟨s', hs', ha, hb, hn, hlen, hget, hlinks⟩ := ih s2
        (fun l' hl' => by rw [h2a]; exact h l' (List.mem_cons_of_mem l hl'))
      refine ⟨s', ?_, by rw [ha, h2a], by rw [hb, h2b], by rw [hn, h2n],
        by rw [hlen, h2len], ?_, ?_⟩
      · unfold relinkLinks
        simp only [normalizeItemF_added halook]
        exact hs'
      · intro j hj
        rw [hget j hj, h2get j hj]
      · intro id' hin
        rcases hlinks id' hin with h1 | h1
        · exact Or.inl h1
        · exact h2links id' h1

theorem relinkSlots_inv (fuel : Nat) (dgst id : String) (canIdx : Nat) :
    ∀ (slots : List (List Link)) (slotIdx : Nat) (s : NState),
      (∀ slot ∈ slots, ∀ l ∈ slot, (alookup s.added l.src).isSome) →
      ∃ s', relinkSlots (normalizeItemF (fuel+1)) dgst id canIdx slots slotIdx s =
          some (.ok s') ∧
        s'.added = s.added ∧ s'.byKey = s.byKey ∧ s'.next = s.next ∧
        s'.items.length = s.items.length ∧
        (∀ j, j ≠ canIdx → s'.items.get? j = s.items.get? j) ∧
        (∀ id', InLinks s' id' → id' = id ∨ InLinks s id') := by
  intro slots
  induction slots with
  | nil =>
    intro slotIdx s _
    exact ⟨s, rfl, rfl, rfl, rfl, rfl, fun j _ => rfl, fun id' h => Or.inr h⟩
  | cons slot rest ih =>
    intro slotIdx s h
    obtain ⟨s1, hs1, h1a, h1b, h1n, h1len, h1get, h1links⟩ :=
      relinkLinks_inv fuel dgst id canIdx slotIdx slot s
        (fun l hl => h slot (List.mem_cons_self slot rest) l hl)
    obtain ⟨s', hs', ha, hb, hn, hlen, hget, hlinks⟩ := ih (slotIdx+1) s1
      (fun sl hsl l hl => by
        rw [h1a]
        exact h sl (List.mem_cons_of_mem slot hsl) l hl)
    refine ⟨s', ?_, by rw [ha, h1a], by rw [hb, h1b], by rw [hn, h1n],
      by rw [hlen, h1len], ?_, ?_⟩
    · unfold relinkSlots
      simp only [hs1]
      exact hs'
    · intro j hj
      rw [hget j hj, h1get j hj]
    · intro id' hin
      rcases hlinks id' hin with h1 | h1
      · exact Or.inl h1
      · exact h1links id' h1

theorem get?_set_ne {α : Type} (l : List α) (i : Nat) (a : α) {j : Nat} (h : j ≠ i) :
    (l.set i a).get? j = l.get? j := by
  simp only [List.get?_eq_getElem?]
  exact List.getElem?_set_ne (fun hh => h hh.symm)

theorem mem_foldl_insertNew {α : Type} [DecidableEq α] :
    ∀ (l : List α) (acc : List α) (x : α), x ∈ l.foldl insertNew acc → x ∈ acc ∨ x ∈ l := by
  intro l
  induction l with
  | nil =>
    intro acc x h
    exact Or.inl h
  | cons b l ih =>
    intro acc x h
    rw [List.foldl_cons] at h
    rcases ih (insertNew acc b) x h with h1 | h1
    · rcases mem_insertNew.mp h1 with h2 | h2
      · exact Or.inl h2
      · exact Or.inr (by rw [h2]; exact List.mem_cons_self b l)
    · exact Or.inr (List.mem_cons_of_mem b h1)

theorem matchLinks_main {A : List ItemA} {rank : Nat → Nat} {f : Nat}
    (hnorm : NormSpec A rank f) (dgst : String) (slotIdx : Nat) (isFirst : Bool) :
    ∀ (ls : List Link) (mset : List String) (s : NState),
      NInv A s →
      (∀ l ∈ ls, l.src < A.length ∧ rank l.src < f) →
      (∀ id ∈ mset, (alookup s.byKey id).isSome) →
      ∃ res, matchLinks (normalizeItemF f) dgst slotIdx isFirst ls mset s = some res ∧
        ((∃ e, res = .error e) ↔ ∃ l ∈ ls, EmptyReach A l.src) ∧
        (∀ mset' s', res = .ok (mset', s') →
          NInv A s' ∧ NMono s s' ∧
          (∀ id ∈ mset', (alookup s'.byKey id).isSome) ∧
          (∀ l ∈ ls, (alookup s'.added l.src).isSome) ∧
          (∀ j, (alookup s'.added j).isSome →
            (alookup s.added j).isSome ∨ ∃ l ∈ ls, rank j ≤ rank l.src)) := by
  intro ls
  induction ls with
  | nil =>
    intro mset s hinv _ hmset
    refine ⟨.ok (mset, s), rfl, ?_, ?_⟩
    · constructor
      · rintro ⟨e, he⟩
        exact Except.noConfusion he
      · rintro ⟨l, hl, _⟩
        exact absurd hl (List.not_mem_nil l)
    · intro mset' s' hok
      injection hok with hok
      injection hok with h1 h2
      rw [← h1, ← h2]
      exact ⟨hinv, ⟨fun j h => h, fun id h => h⟩, hmset,
        fun l hl => absurd hl (List.not_mem_nil l), fun j h => Or.inl h⟩
  | cons l ls ih =>
    intro mset s hinv hls hmset
    obtain ⟨hsrcA, hsrcR⟩ := hls l (List.mem_cons_self l ls)
    obtain ⟨r1, hr1, hiff1, hok1⟩ := hnorm l.src s hinv hsrcA hsrcR
    rcases r1 with e1 | p1
    · have hER : EmptyReach A l.src := hiff1.mp ⟨e1, rfl⟩
      refine ⟨.error e1, ?_, ?_, ?_⟩
      · unfold matchLinks
        simp only [hr1]
      · exact iff_of_true ⟨e1, rfl⟩ ⟨l, List.mem_cons_self l ls, hER⟩
      · intro mset' s' hok
        exact Except.noConfusion hok
    · obtain ⟨c1, s1⟩ := p1
      obtain ⟨hinv1, hadded1, hmono1, hnew1⟩ := hok1 c1 s1 rfl
      have hnoER : ¬ EmptyReach A l.src := by
        intro hER
        obtain ⟨e, he⟩ := hiff1.mpr hER
        exact Except.noConfusion he
      have hids_byKey : ∀ id ∈ linkIds s1 c1 ⟨dgst, slotIdx, l.selector⟩,
          (alookup s1.byKey id).isSome := by
        intro id hid
        rcases c1 with _ | k
        · simp [linkIds] at hid
        · simp only [linkIds] at hid
          rcases hsl : alookup s1.links k with _ | entry
          · simp [hsl] at hid
          · simp only [hsl] at hid
            rcases hnl : alookup entry ⟨dgst, slotIdx, l.selector⟩ with _ | ids0
            · rw [hnl] at hid
              simp at hid
            · rw [hnl] at hid
              simp only [Option.getD_some] at hid
              exact hinv1.2.2.2.1 id
                ⟨k, entry, (⟨dgst, slotIdx, l.selector⟩, ids0), hsl, alookup_mem hnl, hid⟩
      have hmset2_byKey : ∀ id ∈ (if isFirst then
            (linkIds s1 c1 ⟨dgst, slotIdx, l.selector⟩).foldl insertNew mset
          else mset.filter (fun m => m ∈ linkIds s1 c1 ⟨dgst, slotIdx, l.selector⟩)),
          (alookup s1.byKey id).isSome := by
        intro id hid
        by_cases hF : isFirst = true
        · rw [if_pos hF] at hid
          rcases mem_foldl_insertNew _ _ _ hid with h1 | h1
          · exact hmono1.2 id (hmset id h1)
          · exact hids_byKey id h1
        · rw [if_neg hF] at hid
          exact hmono1.2 id (hmset id (List.mem_of_mem_filter hid))
      obtain ⟨res, hres, hiff2, hok2⟩ := ih (if isFirst then
          (linkIds s1 c1 ⟨dgst, slotIdx, l.selector⟩).foldl insertNew mset
        else mset.filter (fun m => m ∈ linkIds s1 c1 ⟨dgst, slotIdx, l.selector⟩)) s1 hinv1
        (fun l' hl' => hls l' (List.mem_cons_of_mem l hl'))
        hmset2_byKey
      refine ⟨res, ?_, ?_, ?_⟩
      · unfold matchLinks
        simp only [hr1]
        exact hres
      · rw [hiff2]
        constructor
        · rintro ⟨l', hl', hE⟩
          exact ⟨l', List.mem_cons_of_mem l hl', hE⟩
        · rintro ⟨l', hl', hE⟩
          rcases List.mem_cons.mp hl' with rfl | hl''
          · exact absurd hE hnoER
          · exact ⟨l', hl'', hE⟩
      · intro mset' s' hok
        obtain ⟨hinv', hmono', hbk', hsrc', hnew'⟩ := hok2 mset' s' hok
        refine ⟨hinv',
          ⟨fun j h => hmono'.1 j (hmono1.1 j h), fun id h => hmono'.2 id (hmono1.2 id h)⟩,
          hbk', ?_, ?_⟩
        · intro l' hl'
          rcases List.mem_cons.mp hl' with rfl | hl''
          · exact hmono'.1 _ hadded1
          · exact hsrc' l' hl''
        · intro j hj
          rcases hnew' j hj with h1 | ⟨l', hl', hle⟩
          · rcases hnew1 j h1 with h2 | h2
            · exact Or.inl h2
            · exact Or.inr ⟨l, List.mem_cons_self l ls, h2⟩
          · exact Or.inr ⟨l', List.mem_cons_of_mem l hl', hle⟩

theorem matchSlots_main {A : List ItemA} {rank : Nat → Nat} {f : Nat}
    (hnorm : NormSpec A rank f) (dgst : String) :
    ∀ (slots : List (List Link)) (slotIdx : Nat) (mset : List String) (s : NState),
      NInv A s →
      (∀ slot ∈ slots, ∀ l ∈ slot, l.src < A.length ∧ rank l.src < f) →
      (∀ id ∈ mset, (alookup s.byKey id).isSome) →
      ∃ res, matchSlots (normalizeItemF f) dgst slots slotIdx mset s = some res ∧
        ((∃ e, res = .error e) ↔
          (∃ slot ∈ slots, slot = []) ∨ ∃ slot ∈ slots, ∃ l ∈ slot, EmptyReach A l.src) ∧
        (∀ mset' s', res = .ok (mset', s') →
          NInv A s' ∧ NMono s s' ∧
          (∀ id ∈ mset', (alookup s'.byKey id).isSome) ∧
          (∀ slot ∈ slots, ∀ l ∈ slot, (alookup s'.added l.src).isSome) ∧
          (∀ j, (alookup s'.added j).isSome →
            (alookup s.added j).isSome ∨ ∃ slot ∈ slots, ∃ l ∈ slot, rank j ≤ rank l.src)) := by
  intro slots
  induction slots with
  | nil =>
    intro slotIdx mset s hinv _ hmset
    refine ⟨.ok (mset, s), rfl, ?_, ?_⟩
    · constructor
      · rintro ⟨e, he⟩
        exact Except.noConfusion he
      · rintro (⟨slot, hsl, _⟩ | ⟨slot, hsl, _⟩) <;> exact absurd hsl (List.not_mem_nil slot)
    · intro mset' s' hok
      injection hok with hok
      injection hok with h1 h2
      rw [← h1, ← h2]
      exact ⟨hinv, ⟨fun j h => h, fun id h => h⟩, hmset,
        fun slot hsl => absurd hsl (List.not_mem_nil slot), fun j h => Or.inl h⟩
  | cons slot rest ih =>
    intro slotIdx mset s hinv hls hmset
    by_cases hemp : slot.isEmpty = true
    · have hslotnil : slot = [] := by
        cases hL : slot with
        | nil => rfl
        | cons a l =>
          rw [hL] at hemp
          exact absurd hemp (by simp [List.isEmpty])
      refine ⟨.error "invalid incomplete links", ?_, ?_, ?_⟩
      · unfold matchSlots
        rw [if_pos hemp]
      · exact iff_of_true ⟨_, rfl⟩
          (Or.inl ⟨slot, List.mem_cons_self slot rest, hslotnil⟩)
      · intro mset' s' hok
        exact Except.noConfusion hok
    · obtain ⟨res1, hres1, hiff1, hok1⟩ := matchLinks_main hnorm dgst slotIdx
        (decide (slotIdx = 0)) slot mset s hinv
        (fun l hl => hls slot (List.mem_cons_self slot rest) l hl) hmset
      rcases res1 with e1 | p1
      · have hER : ∃ l ∈ slot, EmptyReach A l.src := hiff1.mp ⟨e1, rfl⟩
        refine ⟨.error e1, ?_, ?_, ?_⟩
        · unfold matchSlots
          rw [if_neg hemp]
          simp only [hres1]
        · obtain ⟨l, hl, hE⟩ := hER
          exact iff_of_true ⟨e1, rfl⟩
            (Or.inr ⟨slot, List.mem_cons_self slot rest, l, hl, hE⟩)
        · intro mset' s' hok
          exact Except.noConfusion hok
      · obtain ⟨mset1, s1⟩ := p1
        obtain ⟨hinv1, hmono1, hbk1, hsrc1, hnew1⟩ := hok1 mset1 s1 rfl
        have hnoER : ¬ ∃ l ∈ slot, EmptyReach A l.src := by
          intro hE
          obtain ⟨e, he⟩ := hiff1.mpr hE
          exact Except.noConfusion he
        obtain ⟨res, hres, hiff2, hok2⟩ := ih (slotIdx+1) mset1 s1 hinv1
          (fun sl hsl l hl => hls sl (List.mem_cons_of_mem slot hsl) l hl) hbk1
        refine ⟨res, ?_, ?_, ?_⟩
        · unfold matchSlots
          rw [if_neg hemp]
          simp only [hres1]
          exact hres
        · rw [hiff2]
          constructor
          · rintro (⟨sl, hsl, hnil⟩ | ⟨sl, hsl, l, hl, hE⟩)
            · exact Or.inl ⟨sl, List.mem_cons_of_mem slot hsl, hnil⟩
            · exact Or.inr ⟨sl, List.mem_cons_of_mem slot hsl, l, hl, hE⟩
          · rintro (⟨sl, hsl, hnil⟩ | ⟨sl, hsl, l, hl, hE⟩)
            · rcases List.mem_cons.mp hsl with rfl | hsl'
              · exact absurd (by rw [hnil]; rfl) hemp
              · exact Or.inl ⟨sl, hsl', hnil⟩
            · rcases List.mem_cons.mp hsl with rfl | hsl'
              · exact absurd ⟨l, hl, hE⟩ hnoER
              · exact Or.inr ⟨sl, hsl', l, hl, hE⟩
        · intro mset' s' hok
          obtain ⟨hinv', hmono', hbk', hsrc', hnew'⟩ := hok2 mset' s' hok
          refine ⟨hinv',
            ⟨fun j h => hmono'.1 j (hmono1.1 j h), fun id h => hmono'.2 id (hmono1.2 id h)⟩,
            hbk', ?_, ?_⟩
          · intro sl hsl l hl
            rcases List.mem_cons.mp hsl with rfl | hsl'
            · exact hmono'.1 _ (hsrc1 l hl)
            · exact hsrc' sl hsl' l hl
          · intro j hj
            rcases hnew' j hj with h1 | ⟨sl, hsl, l, hl, hle⟩
            · rcases hnew1 j h1 with h2 | ⟨l, hl, hle⟩
              · exact Or.inl h2
              · exact Or.inr ⟨slot, List.mem_cons_self slot rest, l, hl, hle⟩
            · exact Or.inr ⟨sl, List.mem_cons_of_mem slot hsl, l, hl, hle⟩

theorem normSpec_all (A : List ItemA) (rank : Nat → Nat)
    (hrank : RankedArena A rank) (hsrcs : SrcsValid A) :
    ∀ f, NormSpec A rank f := by
  intro f
  induction f with
  | zero =>
    intro i s _ _ hr
    omega
  | succ f ih =>
    intro i s hinv hi hr
    rcases hadd : alookup s.added i with _ | c
    · have hgetA : A.get? i = some (A.get ⟨i, hi⟩) := by
        rw [List.get?_eq_getElem?, List.getElem?_eq_getElem hi, List.get_eq_getElem]
      set it := A.get ⟨i, hi⟩ with hitdef
      have hits : s.items.get? i = some it := by rw [hinv.2.1 i hadd, hgetA]
      by_cases hle : it.links.isEmpty = true
      · have hlinksnil : it.links = [] := by
          cases hL : it.links with
          | nil => rfl
          | cons a l =>
            rw [hL] at hle
            exact absurd hle (by simp [List.isEmpty])
        have hnoER : ¬ EmptyReach A i := by
          rw [emptyReach_iff hgetA, hlinksnil]
          rintro (h | ⟨slot, hslot, _⟩)
          · exact absurd h (List.not_mem_nil [])
          · exact absurd hslot (List.not_mem_nil slot)
        rcases hbk : alookup s.byKey it.dgst with _ | c0
        · refine ⟨.ok (none, { s with byKey := aset s.byKey it.dgst i
                                      added := aset s.added i i }), ?_, ?_, ?_⟩
          · unfold normalizeItemF
            simp only [hadd, hits]
            rw [if_pos hle]
            simp only [hbk]
          · exact iff_of_false (by rintro ⟨e, he⟩; exact Except.noConfusion he) hnoER
          · intro c' s' hok
            injection hok with hok
            injection hok with h1 h2
            rw [← h2]
            refine ⟨⟨hinv.1, ?_, ?_, ?_, ?_⟩, ?_, ?_, ?_⟩
            · intro j hnone
              have hji : j ≠ i := by
                intro h
                rw [h, alookup_aset_self] at hnone
                exact Option.noConfusion hnone
              rw [alookup_aset_of_ne s.added i (fun hh => hji hh.symm)] at hnone
              exact hinv.2.1 j hnone
            · intro j cj hsome
              by_cases hji : j = i
              · rw [hji]
                exact hnoER
              · rw [alookup_aset_of_ne s.added i (fun hh => hji hh.symm)] at hsome
                exact hinv.2.2.1 j cj hsome
            · intro id hin
              exact alookup_aset_isSome it.dgst i (hinv.2.2.2.1 id hin)
            · intro id cid hsome
              by_cases hid : id = it.dgst
              · rw [hid, alookup_aset_self] at hsome
                injection hsome with hsome
                rw [← hsome]
                exact (by rw [alookup_aset_self]; rfl)
              · rw [alookup_aset_of_ne s.byKey i (fun hh => hid hh.symm)] at hsome
                exact alookup_aset_isSome i i (hinv.2.2.2.2 id cid hsome)
            · rw [alookup_aset_self]
              rfl
            · exact ⟨fun j h => alookup_aset_isSome i i h,
                fun id h => alookup_aset_isSome it.dgst i h⟩
            · intro j hj
              rcases alookup_aset_isSome_inv hj with h1 | h1
              · rw [h1]
                exact Or.inr le_rfl
              · exact Or.inl h1
        · refine ⟨.ok (some c0, { s with added := aset s.added i c0 }), ?_, ?_, ?_⟩
          · unfold normalizeItemF
            simp only [hadd, hits]
            rw [if_pos hle]
            simp only [hbk]
          · exact iff_of_false (by rintro ⟨e, he⟩; exact Except.noConfusion he) hnoER
          · intro c' s' hok
            injection hok with hok
            injection hok with h1 h2
            rw [← h2]
            refine ⟨⟨hinv.1, ?_, ?_, hinv.2.2.2.1, ?_⟩, ?_, ?_, ?_⟩
            · intro j hnone
              have hji : j ≠ i := by
                intro h
                rw [h, alookup_aset_self] at hnone
                exact Option.noConfusion hnone
              rw [alookup_aset_of_ne s.added c0 (fun hh => hji hh.symm)] at hnone
              exact hinv.2.1 j hnone
            · intro j cj hsome
              by_cases hji : j = i
              · rw [hji]
                exact hnoER
              · rw [alookup_aset_of_ne s.added c0 (fun hh => hji hh.symm)] at hsome
                exact hinv.2.2.1 j cj hsome
            · intro id cid hsome
              exact alookup_aset_isSome i c0 (hinv.2.2.2.2 id cid hsome)
            · rw [alookup_aset_self]
              rfl
            · exact ⟨fun j h => alookup_aset_isSome i c0 h, fun id h => h⟩
            · intro j hj
              rcases alookup_aset_isSome_inv hj with h1 | h1
              · rw [h1]
                exact Or.inr le_rfl
              · exact Or.inl h1
      · have hlsbound : ∀ slot ∈ it.links, ∀ l ∈ slot, l.src < A.length ∧ rank l.src < f := by
          intro slot hslot l hl
          have h1 := hsrcs i hi slot hslot l hl
          have h2 := hrank i hi slot hslot l hl
          exact ⟨h1, by omega⟩
        obtain ⟨res, hres, hiffM, hokM⟩ := matchSlots_main ih it.dgst it.links 0 [] s hinv
          hlsbound (fun id h => absurd h (List.not_mem_nil id))
        rcases res with eM | pM
        · have hER : EmptyReach A i := by
            rcases hiffM.mp ⟨eM, rfl⟩ with ⟨slot, hslot, hnil⟩ | ⟨slot, hslot, l, hl, hE⟩
            · exact EmptyReach.here i it hgetA (by rw [hnil] at hslot; exact hslot)
            · exact EmptyReach.step i it slot l hgetA hslot hl hE
          refine ⟨.error eM, ?_, iff_of_true ⟨eM, rfl⟩ hER, fun c' s' h => Except.noConfusion h⟩
          unfold normalizeItemF
          simp only [hadd, hits]
          rw [if_neg hle]
          simp only [hres]
        · obtain ⟨M, s1⟩ := pM
          obtain ⟨hinv1, hmono1, hbk1, hsrc1, hnew1⟩ := hokM M s1 rfl
          have hnoERor : ¬ ((∃ sl ∈ it.links, sl = []) ∨
              ∃ sl ∈ it.links, ∃ l ∈ sl, EmptyReach A l.src) := by
            intro hcon
            obtain ⟨e, he⟩ := hiffM.mpr hcon
            exact Except.noConfusion he
          have hnoER : ¬ EmptyReach A i := by
            rw [emptyReach_iff hgetA]
            rintro (h | ⟨slot, hslot, l, hl, hE⟩)
            · exact hnoERor (Or.inl ⟨[], h, rfl⟩)
            · exact hnoERor (Or.inr ⟨slot, hslot, l, hl, hE⟩)
          have hadd1 : alookup s1.added i = none := by
            cases hA1 : alookup s1.added i with
            | none => rfl
            | some c1 =>
              exfalso
              have h1 : (alookup s1.added i).isSome := by rw [hA1]; rfl
              rcases hnew1 i h1 with h2 | ⟨slot, hslot, l, hl, hle'⟩
              · rw [hadd] at h2
                exact Bool.noConfusion h2
              · have := hrank i hi slot hslot l hl
                omega
          have hit1 : s1.items.get? i = some it := by rw [hinv1.2.1 i hadd1, hgetA]
          have hlinksne : it.links ≠ [] := by
            intro h
            rw [h] at hle
            exact hle rfl
          obtain ⟨slot0, hslot0⟩ : ∃ slot0, slot0 ∈ it.links := by
            cases hL : it.links with
            | nil => exact absurd hL hlinksne
            | cons a l => exact ⟨a, List.mem_cons_self a l⟩
          have hslot0ne : slot0 ≠ [] := by
            intro h0
            exact hnoERor (Or.inl ⟨slot0, hslot0, h0⟩)
          obtain ⟨l0, hl0⟩ : ∃ l0, l0 ∈ slot0 := by
            cases hL : slot0 with
            | nil => exact absurd hL hslot0ne
            | cons a l => exact ⟨a, List.mem_cons_self a l⟩
          obtain ⟨f', rfl⟩ : ∃ f', f = f' + 1 := by
            have := (hlsbound slot0 hslot0 l0 hl0).2
            exact ⟨f - 1, by omega⟩
          by_cases hMe : M.isEmpty = true
          · obtain ⟨s3, hs3, h3a, h3b, h3n, h3len, h3get, h3links⟩ :=
              relinkSlots_inv f' it.dgst (digestFromBytes (Nat.repr (s1.next + 1))) i
                it.links 0
                { s1 with
                  next := s1.next + 1
                  byKey := aset s1.byKey (digestFromBytes (Nat.repr (s1.next + 1))) i
                  items := s1.items.set i { it with links := List.replicate it.links.length [] }
                  added := aset s1.added i i }
                (fun slot hsl l hl => alookup_aset_isSome i i (hsrc1 slot hsl l hl))
            refine ⟨.ok (some i, s3), ?_, ?_, ?_⟩
            · unfold normalizeItemF
              simp only [hadd, hits]
              rw [if_neg hle]
              simp only [hres, hit1, Option.getD_some]
              rw [if_pos hMe]
              simp only [hs3]
            · exact iff_of_false (by rintro ⟨e, he⟩; exact Except.noConfusion he) hnoER
            · intro c' s' hok
              injection hok with hok
              injection hok with h1 h2
              rw [← h2]
              have h3a' : s3.added = aset s1.added i i := h3a
              have h3b' : s3.byKey = aset s1.byKey (digestFromBytes (Nat.repr (s1.next + 1))) i := h3b
              refine ⟨⟨?_, ?_, ?_, ?_, ?_⟩, ?_, ?_, ?_⟩
              · rw [h3len]
                show (s1.items.set i _).length = A.length
                rw [List.length_set]
                exact hinv1.1
              · intro j hnone
                rw [h3a'] at hnone
                have hji : j ≠ i := by
                  intro h
                  rw [h, alookup_aset_self] at hnone
                  exact Option.noConfusion hnone
                rw [alookup_aset_of_ne s1.added i (fun hh => hji hh.symm)] at hnone
                rw [h3get j hji]
                show (s1.items.set i _).get? j = A.get? j
                rw [get?_set_ne s1.items i _ hji]
                exact hinv1.2.1 j hnone
              · intro j cj hsome
                rw [h3a'] at hsome
                by_cases hji : j = i
                · rw [hji]
                  exact hnoER
                · rw [alookup_aset_of_ne s1.added i (fun hh => hji hh.symm)] at hsome
                  exact hinv1.2.2.1 j cj hsome
              · intro id hin
                rcases h3links id hin with h1 | h1
                · rw [h1, h3b', alookup_aset_self]
                  rfl
                · rw [h3b']
                  exact alookup_aset_isSome _ i (hinv1.2.2.2.1 id h1)
              · intro id cid hsome
                rw [h3b'] at hsome
                rw [h3a']
                by_cases hid : id = digestFromBytes (Nat.repr (s1.next + 1))
                · rw [hid, alookup_aset_self] at hsome
                  injection hsome with hsome
                  rw [← hsome, alookup_aset_self]
                  rfl
                · rw [alookup_aset_of_ne s1.byKey i (fun hh => hid hh.symm)] at hsome
                  exact alookup_aset_isSome i i (hinv1.2.2.2.2 id cid hsome)
              · rw [h3a', alookup_aset_self]
                rfl
              · refine ⟨fun j h => ?_, fun id h => ?_⟩
                · rw [h3a']
                  exact alookup_aset_isSome i i (hmono1.1 j h)
                · rw [h3b']
                  exact alookup_aset_isSome _ i (hmono1.2 id h)
              · intro j hj
                rw [h3a'] at hj
                rcases alookup_aset_isSome_inv hj with h1 | h1
                · rw [h1]
                  exact Or.inr le_rfl
                · rcases hnew1 j h1 with h2 | ⟨slot, hslot, l, hl, hle'⟩
                  · exact Or.inl h2
                  · have := hrank i hi slot hslot l hl
                    exact Or.inr (by omega)
          · have hMne : M ≠ [] := by
              intro h
              rw [h] at hMe
              exact hMe rfl
            have hpick := pickMinId_mem hMne
            have hbkSome := hbk1 _ hpick
            rcases hcan : alookup s1.byKey (pickMinId M) with _ | canIdx
            · rw [hcan] at hbkSome
              exact absurd hbkSome (by simp)
            · have hcanAdded : (alookup s1.added canIdx).isSome := hinv1.2.2.2.2 _ _ hcan
              obtain ⟨s3, hs3, h3a, h3b, h3n, h3len, h3get, h3links⟩ :=
                relinkSlots_inv f' it.dgst (pickMinId M) canIdx it.links 0
                  { s1 with added := aset s1.added i canIdx }
                  (fun slot hsl l hl => alookup_aset_isSome i canIdx (hsrc1 slot hsl l hl))
              refine ⟨.ok (some canIdx, s3), ?_, ?_, ?_⟩
              · unfold normalizeItemF
                simp only [hadd, hits]
                rw [if_neg hle]
                simp only [hres, hit1, Option.getD_some]
                rw [if_neg hMe]
                simp only [hcan, hs3]
              · exact iff_of_false (by rintro ⟨e, he⟩; exact Except.noConfusion he) hnoER
              · intro c' s' hok
                injection hok with hok
                injection hok with h1 h2
                rw [← h2]
                have h3a' : s3.added = aset s1.added i canIdx := h3a
                have h3b' : s3.byKey = s1.byKey := h3b
                refine ⟨⟨?_, ?_, ?_, ?_, ?_⟩, ?_, ?_, ?_⟩
                · rw [h3len]
                  exact hinv1.1
                · intro j hnone
                  rw [h3a'] at hnone
                  have hji : j ≠ i := by
                    intro h
                    rw [h, alookup_aset_self] at hnone
                    exact Option.noConfusion hnone
                  rw [alookup_aset_of_ne s1.added canIdx (fun hh => hji hh.symm)] at hnone
                  have hjc : j ≠ canIdx := by
                    intro h
                    rw [h] at hnone
                    rw [hnone] at hcanAdded
                    exact Bool.noConfusion hcanAdded
                  rw [h3get j hjc]
                  exact hinv1.2.1 j hnone
                · intro j cj hsome
                  rw [h3a'] at hsome
                  by_cases hji : j = i
                  · rw [hji]
                    exact hnoER
                  · rw [alookup_aset_of_ne s1.added canIdx (fun hh => hji hh.symm)] at hsome
                    exact hinv1.2.2.1 j cj hsome
                · intro id hin
                  rcases h3links id hin with h1 | h1
                  · rw [h1, h3b']
                    rw [hcan]
                    rfl
                  · rw [h3b']
                    exact hinv1.2.2.2.1 id h1
                · intro id cid hsome
                  rw [h3b'] at hsome
                  rw [h3a']
                  exact alookup_aset_isSome i canIdx (hinv1.2.2.2.2 id cid hsome)
                · rw [h3a', alookup_aset_self]
                  rfl
                · refine ⟨fun j h => ?_, fun id h => ?_⟩
                  · rw [h3a']
                    exact alookup_aset_isSome i canIdx (hmono1.1 j h)
                  · rw [h3b']
                    exact hmono1.2 id h
                · intro j hj
                  rw [h3a'] at hj
                  rcases alookup_aset_isSome_inv hj with h1 | h1
                  · rw [h1]
                    exact Or.inr le_rfl
                  · rcases hnew1 j h1 with h2 | ⟨slot, hslot, l, hl, hle'⟩
                    · exact Or.inl h2
                    · have := hrank i hi slot hslot l hl
                      exact Or.inr (by omega)
    · refine ⟨.ok (some c, s), ?_, ?_, ?_⟩
      · unfold normalizeItemF
        simp only [hadd]
      · exact iff_of_false (by rintro ⟨e, he⟩; exact Except.noConfusion he)
          (hinv.2.2.1 i c hadd)
      · intro c' s' hok
        injection hok with hok
        injection hok with h1 h2
        rw [← h2]
        exact ⟨hinv, by rw [hadd]; rfl, ⟨fun j h => h, fun id h => h⟩, fun j h => Or.inl h⟩

/-- C7: confirmed.  Over an arena whose link graph is acyclic (a rank
function decreases along links) and whose link sources are in bounds,
`normalizeItem` started on a fresh normalization state returns a value
(given fuel above the item's rank), and that value is an error *iff* the
item or one of its transitively reachable source items has an empty
input slot; with every reachable slot non-empty it normalizes without
error. -/
theorem c7_error_iff_empty (A : List ItemA) (rank : Nat → Nat)
    (hrank : RankedArena A rank) (hsrcs : SrcsValid A)
    (i : Nat) (hi : i < A.length) (fuel : Nat) (hfuel : rank i < fuel) :
    ∃ r, normalizeItemF fuel (initNState A) i = some r ∧
      ((∃ e, r = Except.error e) ↔ EmptyReach A i) := by
  have hinv : NInv A (initNState A) := by
    refine ⟨rfl, fun j _ => rfl, ?_, ?_, ?_⟩
    · intro j c h
      simp [initNState, alookup] at h
    · intro id hin
      obtain ⟨k, entry, p, hent, _, _⟩ := hin
      simp [initNState, alookup] at hent
    · intro id c h
      simp [initNState, alookup] at h
  obtain ⟨r, hr, hiff, _⟩ :=
    normSpec_all A rank hrank hsrcs fuel i (initNState A) hinv hi hfuel
  exact ⟨r, hr, hiff⟩

/-- Witness for C7 at `arenaC7`: item `1` has an empty second input
slot, so its normalization result is an error; the iff is produced at
the concrete arena with the identity rank function. -/
theorem c7_error_iff_empty_witness :
    ∃ r, normalizeItemF 2 (initNState arenaC7) 1 = some r ∧
      ((∃ e, r = Except.error e) ↔ EmptyReach arenaC7 1) :=
  c7_error_iff_empty arenaC7 (fun j => j)
    (by unfold RankedArena; decide) (by unfold SrcsValid; decide)
    1 (by decide) 2 (by decide)
